import Mathlib

/-!
Verification of the grid continuation engine of
`catmap/mappers/min_resid_mapper.py` (class `MinResidMapper`).

Shallow embedding conventions:
* Descriptor points are pairs of rationals (`Point`); Python float arithmetic
  on descriptor coordinates (halving, averaging) is exact here.
* Quantities (coverage vectors or x-vectors of the numbers solver) are lists
  of rationals (`Qty`).
* The external collaborators (nonlinear solver wrapped by
  `self.get_point_output`, residual evaluation `self.solver.get_residual`,
  Boltzmann initial guesses `self.get_initial_coverage`, the numbers
  transform `self.solver.change_x_to_theta`) are fields of an `Env` record,
  per spec section 6 they are outside the verified core.
* Python `ValueError` exceptions are modelled by `Except`.  The code parses
  the numeric residual out of the exception message
  (`strerror.split(...)` in `check_by_minresid`); we model a message as the
  result of that parse: `Option ℚ` is `some r` when the message contains a
  float-parseable `resid=r` part, `none` otherwise.  An
  `UnboundLocalError` (which is not a `ValueError` and is never caught by
  the code) is a separate constructor.
-/

deriving instance DecidableEq for Except

/-- A descriptor point `[d1, d2]`. -/
abbrev Point : Type := ℚ × ℚ

/-- A quantity: a coverage vector, or an x-vector when the numbers solver is
active. -/
abbrev Qty : Type := List ℚ

/-- A candidate `[residual, source point, seed quantity]` as built by
`minresid_iteration` and consumed by `check_by_minresid`. -/
abbrev Cand : Type := ℚ × Point × Qty

/-- Failure modes of the Python code.
`valueError r` is a `ValueError` whose message parses (via
`split(..resid..)[-1].split(..)[0]` then `float`) to the residual `r` when
`r = some ρ`, and fails to parse when `r = none`.
`unboundLocal` is the `UnboundLocalError` raised when a local variable is
read before assignment; it is not a `ValueError` so no `except ValueError`
clause catches it.
`fuel` never occurs for the fuel values used by the top-level definitions
(see `sweepLoop_no_fuel_error` and `bdlLoop_iter_le`); it marks exhaustion
of the explicit recursion bound used to express the Python `while` loops. -/
inductive BErr where
  | valueError (resid : Option ℚ)
  | unboundLocal
  | fuel
deriving DecidableEq, Repr

/-- Mutable per-run state threaded through the mapper:
`cmap` is `self._coverage_map`, `nmap` is `self._numbers_map`.
`bisectCalls` counts invocations of `bisect_descriptor_line` and
`statusLog` records the source point of every `self.log(..minresid_status..)`
call, in order; the two are observers used to state non-invocation and
ordering properties and do not influence any computed value. -/
structure MState where
  cmap : List (Point × Qty)
  nmap : List (Point × Qty)
  bisectCalls : ℕ
  statusLog : List Point
deriving DecidableEq, Repr

/-- The initial (fresh-run) mutable state. -/
def MState.empty : MState := ⟨[], [], 0, []⟩

/-- External collaborators (spec section 6) and configuration options
consumed by `MinResidMapper`. `solve pt q` models
`self.get_point_output(pt, q)`: on success it yields the pair
(`self._coverage`, `self._numbers`) left in the ambient state; on failure it
raises a `ValueError` whose message parse is the payload.  `residual pt q`
models `self.solver.get_residual(q)` evaluated with the reaction parameters
of `pt` (the code always sets the parameters of the relevant point first).
`sqrtQ` stands for `mp.sqrt` in the rational embedding of
`extrapolate_coverages`; the theorems about extrapolation itself use the
real-valued instance with `Real.sqrt`. -/
structure Env where
  solve : Point → Qty → Except (Option ℚ) (Qty × Qty)
  residual : Point → Qty → ℚ
  initialGuess : Point → List Qty
  changeXtoTheta : Qty → Qty
  sqrtQ : ℚ → ℚ
  useNumbers : Bool
  maxBisections : ℤ
  maxInitialGuesses : Option ℤ
  extrapolateCoverages : Bool
  searchDirections : List (ℤ × ℤ)
  precision : ℕ

/-- Python truthiness of a quantity (`if point_coverages:`): a non-empty
list. -/
def truthyQty (q : Qty) : Bool := !q.isEmpty

/-- Python truthiness of an optional quantity (`if sol_cvgs:` where
`sol_cvgs` is `None` or a vector). -/
def truthyOpt : Option Qty → Bool
  | none => false
  | some q => truthyQty q

/-- Rounding of a rational to `n` decimal places, `np.round(q, n)`.
(`np.round` breaks exact ties to even; no statement below depends on tie
behaviour.) -/
def roundQ (n : ℕ) (q : ℚ) : ℚ := (round (q * 10 ^ n) : ℤ) / 10 ^ n

/-- Rounding of a point coordinatewise. -/
def roundPoint (n : ℕ) (p : Point) : Point := (roundQ n p.1, roundQ n p.2)

/-- Modelled from the spec: `retrieve_data` lives in `MapperBase`
(not part of the shown source); spec section 4.1: it returns the stored
quantity for the first entry of the map whose rounded point matches the
rounded query point, or a not-found signal (`None`). -/
def retrieve_data (m : List (Point × Qty)) (pt : Point) (n : ℕ) : Option Qty :=
  (m.find? (fun pc => roundPoint n pc.1 == roundPoint n pt)).map (fun pc => pc.2)

/-- Python list slicing `l[:k]` for an integer bound `k` (negative bounds
count from the end). -/
def pySlice {α : Type} (l : List α) (k : ℤ) : List α :=
  if 0 ≤ k then l.take k.toNat else l.take (l.length - (-k).toNat)

/-- Coordinatewise midpoint, the Python
`[(float(d1)+float(d2))/float(2.0) for d1, d2 in zip(old, current)]`. -/
def midPoint (a b : Point) : Point := ((a.1 + b.1) / 2, (a.2 + b.2) / 2)

/-- The helper `extrapolate_coverages` inside `bisect_descriptor_line`,
transcribed over an arbitrary field with an explicit square-root function
(the source uses `mp.sqrt`; the faithful instance is `K = ℝ`,
`sqrt = Real.sqrt`). -/
def extrapolate_coverages {K : Type} [Field K] (sqrt : K → K)
    (descriptors0 : K × K) (quantities0 : List K)
    (descriptors1 : K × K) (quantities1 : List K)
    (descriptors2 : K × K) : List K :=
  let dx := List.zipWith (fun a b => a - b) quantities1 quantities0
  let dY := (descriptors1.1 - descriptors0.1, descriptors1.2 - descriptors0.2)
  let dy := sqrt (dY.1 ^ 2 + dY.2 ^ 2)
  let dY2 := (descriptors2.1 - descriptors0.1, descriptors2.2 - descriptors0.2)
  let dy2 := sqrt (dY2.1 ^ 2 + dY2.2 ^ 2)
  let m := dx.map (fun dxi => dxi / dy)
  List.zipWith (fun q mi => q + mi * dy2) quantities0 m

/-- The `while VCconverged == False and VCiter < self.max_bisections` loop of
`get_next_valid_coverages`.  `quantity` is the (never reassigned) seed,
`coverages` its coverage form, `lastResid` the last value assigned to the
local `resid` (`none` = still unassigned), `iters` the number of solve
attempts so far.  The remaining iteration budget
`max_bisections - VCiter` is the structural fuel, so the recursion matches
the loop exactly. -/
def gnvcLoop (env : Env) (old_descriptors : Point) (quantity coverages : Qty)
    (current_descriptors : Point) (lastResid : Option ℚ) (iters : ℕ) :
    ℕ → Except BErr (Point × Qty) × ℕ
  | 0 =>
    -- loop exited without convergence: `raise ValueError(... resid ...)`;
    -- reading `resid` before any assignment is an UnboundLocalError
    (match lastResid with
     | none => Except.error BErr.unboundLocal
     | some r => Except.error (BErr.valueError (some r)), iters)
  | budget + 1 =>
    match env.solve current_descriptors quantity with
    | Except.ok cn =>
      -- success: return (current_descriptors, numbers or coverages)
      (Except.ok (current_descriptors,
        if env.useNumbers then cn.2 else cn.1), iters + 1)
    | Except.error _ =>
      let resid := env.residual current_descriptors coverages
      let current2 := midPoint old_descriptors current_descriptors
      gnvcLoop env old_descriptors quantity coverages current2
        (some resid) (iters + 1) budget

/-- `get_next_valid_coverages(new_descriptors, old_descriptors, old_quantity)`
(the inner helper of `bisect_descriptor_line`).  Returns the solved point and
quantity together with the number of solve attempts performed.  The loop
bound `VCiter < self.max_bisections` gives a budget of
`max_bisections.toNat` attempts (zero when `max_bisections ≤ 0`, exactly as
in Python where the loop body never runs). -/
def get_next_valid_coverages (env : Env) (new_descriptors old_descriptors : Point)
    (old_quantity : Qty) : Except BErr (Point × Qty) × ℕ :=
  let coverages := if env.useNumbers then env.changeXtoTheta old_quantity
                   else old_quantity
  gnvcLoop env old_descriptors old_quantity coverages new_descriptors
    none 0 env.maxBisections.toNat

/-- One step of state recording after a successful
`get_next_valid_coverages` inside `bisect_descriptor_line`: the newly solved
intermediate point is appended to the coverage map (and numbers map when the
numbers solver is active). -/
def bdlRecord (env : Env) (st : MState) (solved : Point) (q : Qty) : MState :=
  if env.useNumbers then
    { st with cmap := st.cmap ++ [(solved, env.changeXtoTheta q)],
              nmap := st.nmap ++ [(solved, q)] }
  else
    { st with cmap := st.cmap ++ [(solved, q)] }

/-- The outer `while PCconverged == False and PCiter <= 2**self.max_bisections`
loop of `bisect_descriptor_line`.  The guard is evaluated over ℚ so that a
negative `max_bisections` compares against the fractional Python value
`2**max_bisections` exactly.  The structural fuel is an upper bound on the
remaining iterations; `bdlLoop_iter_le` shows the fuel chosen by
`bisect_descriptor_line` is never exhausted.  Returns (result, state, PCiter). -/
def bdlLoop (env : Env) (new_descriptors : Point) (solved_descriptors : Point)
    (current_quantity : Qty) (st : MState) (PCiter : ℕ) :
    ℕ → Except BErr Qty × MState × ℕ
  | 0 => (Except.error BErr.fuel, st, PCiter)
  | budget + 1 =>
    if (PCiter : ℚ) ≤ (2 : ℚ) ^ env.maxBisections then
      -- loop body: PCiter += 1; remember (descriptors0, quantity0)
      let descriptors0 := solved_descriptors
      let quantity0 := current_quantity
      match get_next_valid_coverages env new_descriptors solved_descriptors
              current_quantity with
      | (Except.error e, _) => (Except.error e, st, PCiter + 1)
      | (Except.ok sq, _) =>
        let solved2 := sq.1
        let quantity2 := sq.2
        let st2 := bdlRecord env st solved2 quantity2
        if solved2 = new_descriptors then
          (Except.ok quantity2, st2, PCiter + 1)
        else
          let nextQuantity :=
            if env.extrapolateCoverages then
              extrapolate_coverages env.sqrtQ descriptors0 quantity0
                solved2 quantity2 new_descriptors
            else quantity2
          bdlLoop env new_descriptors solved2 nextQuantity st2 (PCiter + 1) budget
    else
      -- loop exits; PCconverged is False here, so the final
      -- `raise ValueError(...)` fires; its message has no parseable resid
      (Except.error (BErr.valueError none), st, PCiter)

/-- `bisect_descriptor_line(new_descriptors, old_descriptors,
initial_guess_quantity)`.  Returns the found quantity (or the escaping
exception), the updated state, and the number of outer iterations
performed (`PCiter`).  The invocation counter of the state is bumped so
that non-invocation properties can be stated. -/
def bisect_descriptor_line (env : Env) (st : MState)
    (new_descriptors old_descriptors : Point) (initial_guess_quantity : Qty) :
    Except BErr Qty × MState × ℕ :=
  bdlLoop env new_descriptors old_descriptors initial_guess_quantity
    { st with bisectCalls := st.bisectCalls + 1 } 0
    (2 ^ env.maxBisections.toNat + 2)


/-- The outcome of `check_by_minresid`: `resolved` is the Python `return None`
(solution recorded), `unresolved ps` is the returned list of
`new_possibilities`. -/
inductive CheckResult where
  | resolved
  | unresolved (newPossibilities : List Cand)
deriving DecidableEq, Repr

/-- The `for i_poss, poss in enumerate(possibilities)` loop of
`check_by_minresid`, with the accumulators `tried` and `new_possibilities`.
Only a `ValueError` is caught by the `except` clause; an
`UnboundLocalError` escapes.  The `minresid_status` log call at the head of
the body is recorded in `statusLog`. -/
def cbmLoop (env : Env) (this_pt : Point) (bisect : Bool) :
    List Cand → MState → List Point → List Cand →
    Except BErr CheckResult × MState
  | [], st, _, newPossibilities => (Except.ok (CheckResult.unresolved newPossibilities), st)
  | (r, sol_pt, c) :: rest, st, tried, newPossibilities =>
    let st := { st with statusLog := st.statusLog ++ [sol_pt] }
    if sol_pt ∈ tried then
      -- attempt skipped; the trailing `if sol_pt != this_pt: tried.append`
      -- re-appends, which does not change membership
      cbmLoop env this_pt bisect rest st
        (if sol_pt ≠ this_pt then tried ++ [sol_pt] else tried) newPossibilities
    else if bisect = false ∨ this_pt = sol_pt then
      -- direct solve at this_pt seeded with c
      match env.solve this_pt c with
      | Except.ok cn =>
        let st2 :=
          if truthyQty cn.1 then
            if env.useNumbers then
              { st with cmap := st.cmap ++ [(this_pt, cn.1)],
                        nmap := st.nmap ++ [(this_pt, cn.2)] }
            else { st with cmap := st.cmap ++ [(this_pt, cn.1)] }
          else st
        (Except.ok CheckResult.resolved, st2)
      | Except.error parsedResid =>
        -- `except ValueError`: re-queue when the residual parses as a float
        -- and the candidate is not the self candidate
        let newPossibilities2 :=
          match parsedResid with
          | some resid =>
            if this_pt ≠ sol_pt then newPossibilities ++ [(resid, sol_pt, c)]
            else newPossibilities
          | none => newPossibilities
        cbmLoop env this_pt bisect rest st
          (if sol_pt ≠ this_pt then tried ++ [sol_pt] else tried) newPossibilities2
    else
      -- bisect is true and sol_pt differs from this_pt
      match bisect_descriptor_line env st this_pt sol_pt c with
      | (Except.ok q, st2, _) =>
        let st3 :=
          if truthyQty q then
            if env.useNumbers then
              { st2 with cmap := st2.cmap ++ [(this_pt, env.changeXtoTheta q)],
                         nmap := st2.nmap ++ [(this_pt, q)] }
            else { st2 with cmap := st2.cmap ++ [(this_pt, q)] }
          else st2
        (Except.ok CheckResult.resolved, st3)
      | (Except.error BErr.unboundLocal, st2, _) =>
        -- an UnboundLocalError is not a ValueError: it propagates
        (Except.error BErr.unboundLocal, st2)
      | (Except.error BErr.fuel, st2, _) => (Except.error BErr.fuel, st2)
      | (Except.error (BErr.valueError parsedResid), st2, _) =>
        let newPossibilities2 :=
          match parsedResid with
          | some resid =>
            if this_pt ≠ sol_pt then newPossibilities ++ [(resid, sol_pt, c)]
            else newPossibilities
          | none => newPossibilities
        cbmLoop env this_pt bisect rest st2
          (if sol_pt ≠ this_pt then tried ++ [sol_pt] else tried) newPossibilities2

/-- `check_by_minresid(possibilities, this_pt, bisect)` (helper defined
inside `get_coverage_map`).  Note: despite its docstring (try candidates
in order of minimum residual) the loop consumes `possibilities` in the
order given; there is no sort. -/
def check_by_minresid (env : Env) (st : MState) (possibilities : List Cand)
    (this_pt : Point) (bisect : Bool) : Except BErr CheckResult × MState :=
  cbmLoop env this_pt bisect possibilities st [] []

/-- `get_initial_coverage_from_map`.  `resid` models
`self.solver.get_residual` under the ambient parameters of the target point.
`resid_cvg.sort()` compares `[residual, quantity]` pairs; ties on the
residual would compare the quantity objects, so we model it as a sort by
the residual key (no conclusion below depends on the tie order).
The Python unpacking `resids, cvgs = zip(*resid_cvg)` raises on an empty
map; the theorems therefore assume a non-empty map. -/
def get_initial_coverage_from_map (resid : Qty → ℚ)
    (max_initial_guesses : Option ℤ) (coverage_map : List (Point × Qty)) :
    List Qty :=
  let resid_cvg := coverage_map.map (fun pc => (resid pc.2, pc.2))
  let sorted := resid_cvg.mergeSort (fun a b => a.1 ≤ b.1)
  let max_len : ℤ :=
    match max_initial_guesses with
    | some k => if k ≠ 0 then max k (sorted.length : ℤ) else (sorted.length : ℤ)
    | none => (sorted.length : ℤ)
  pySlice (sorted.map (fun pc => pc.2)) max_len

/-- The duplicate-removal loop at the end of `get_coverage_map`
(`for pt, cvgs in self._coverage_map: if pt not in pts: ...`).
Membership `pt not in pts` is exact equality of points, not rounded
equality.  The parallel `nodups_numbers` list (built only when the numbers
solver is active) stores `retrieve_data` results, which may be absent
(`None` in Python), hence `Option Qty`. -/
def dedupGo (useNumbers : Bool) (retr : Point → Option Qty) :
    List (Point × Qty) → List Point → List (Point × Qty) →
    List (Point × Option Qty) →
    List (Point × Qty) × List (Point × Option Qty)
  | [], _, nodups, nodups_numbers => (nodups, nodups_numbers)
  | (pt, cvgs) :: rest, pts, nodups, nodups_numbers =>
    if pt ∈ pts then dedupGo useNumbers retr rest pts nodups nodups_numbers
    else
      dedupGo useNumbers retr rest (pts ++ [pt]) (nodups ++ [(pt, cvgs)])
        (if useNumbers then nodups_numbers ++ [(pt, retr pt)] else nodups_numbers)

/-- The deduplicated coverage map produced at the end of `get_coverage_map`
(`nodups`): first entry per distinct (exact) point wins. -/
def removeDuplicates (coverage_map : List (Point × Qty)) : List (Point × Qty) :=
  (dedupGo false (fun _ => none) coverage_map [] [] []).1

/-- The per-cell direction bitmask matrix `isMapped` (a 2-D integer array in
the source). -/
abbrev Grid := List (List ℕ)

/-- `isMapped[i, j]` (out-of-range reads default to 0; the embedding only
reads in-range cells of rectangular grids). -/
def getAt (g : Grid) (i j : ℕ) : ℕ := (g.getD i []).getD j 0

/-- `isMapped[i, j] = v`. -/
def setAt (g : Grid) (i j : ℕ) (v : ℕ) : Grid :=
  g.set i ((g.getD i []).set j v)

/-- `checked_dirs`: the list of binary digits of `v` produced by
`np.binary_repr`, padded with leading zeros to length `D`
(most-significant digit first).  Faithful for `v < 2 ^ D`, which holds at
every use site (`v < maxNum`). -/
def bitsOf (D v : ℕ) : List ℕ :=
  (List.range D).map (fun k => if v.testBit (D - 1 - k) then 1 else 0)

/-- `int(binstring, 2)` for a digit list (most-significant first). -/
def ofBits (l : List ℕ) : ℕ := l.foldl (fun acc b => 2 * acc + b) 0

/-- `maxNum = int(..1.. * len(search_directions), 2) = 2 ^ D - 1`. -/
def maxNumOf (D : ℕ) : ℕ := 2 ^ D - 1

/-- The terminal solved sentinel
`int(..1.. + np.binary_repr(maxNum), 2) = 2 ^ D + maxNum = 2 ^ (D + 1) - 1`. -/
def sentinelOf (D : ℕ) : ℕ := 2 ^ (D + 1) - 1

/-- The `for k, direc in enumerate(self.search_directions)` loop of
`minresid_iteration` for one cell `(i, j)`: builds the candidate list and
updates `checked_dirs`.  A neighbor direction whose point is not yet in the
coverage map is left unchecked for a future sweep; every other in-range
direction is marked checked. -/
def dirLoop (env : Env) (ms : MState) (d1Vals d2Vals : List ℚ) (m n : ℕ)
    (i j : ℕ) (this_pt : Point) :
    List (ℤ × ℤ) → ℕ → List ℕ → List Cand → List ℕ × List Cand
  | [], _, checked_dirs, possibilities => (checked_dirs, possibilities)
  | (dirx, diry) :: rest, k, checked_dirs, possibilities =>
    let solx : ℤ := (i : ℤ) + dirx
    let soly : ℤ := (j : ℤ) + diry
    if solx < (m : ℤ) ∧ 0 ≤ solx ∧ soly < (n : ℤ) ∧ 0 ≤ soly ∧
        checked_dirs.getD k 0 = 0 then
      let sol_pt : Point := (d1Vals.getD solx.toNat 0, d2Vals.getD soly.toNat 0)
      if sol_pt ≠ this_pt then
        let sol_cvgs := retrieve_data ms.cmap sol_pt env.precision
        if truthyOpt sol_cvgs then
          let cvgs := sol_cvgs.getD []
          let resid := env.residual sol_pt cvgs
          let seed :=
            if env.useNumbers then
              (retrieve_data ms.nmap sol_pt env.precision).getD []
            else cvgs
          dirLoop env ms d1Vals d2Vals m n i j this_pt rest (k + 1)
            (checked_dirs.set k 1) (possibilities ++ [(resid, sol_pt, seed)])
        else
          -- neighbor not found: leave the direction unchecked
          dirLoop env ms d1Vals d2Vals m n i j this_pt rest (k + 1)
            checked_dirs possibilities
      else
        -- the (0, 0) self direction: Boltzmann-weighted initial guesses
        let boltz_cvgs := env.initialGuess this_pt
        let boltz_cut :=
          match env.maxInitialGuesses with
          | some mig => pySlice boltz_cvgs (min (boltz_cvgs.length : ℤ) mig)
          | none => boltz_cvgs
        let cands := boltz_cut.map (fun cvg => (env.residual this_pt cvg, this_pt, cvg))
        dirLoop env ms d1Vals d2Vals m n i j this_pt rest (k + 1)
          (checked_dirs.set k 1) (possibilities ++ cands)
    else
      -- out of the grid (or already checked): mark it checked
      dirLoop env ms d1Vals d2Vals m n i j this_pt rest (k + 1)
        (checked_dirs.set k 1) possibilities

/-- The body of `minresid_iteration` for one grid cell `(i, j)`: build the
possibilities, try them without bisection, escalate to bisection when that
fails and `max_bisections > 0`, then update `isMapped[i, j]`.  A propagating
exception aborts the whole run, so the error case carries no state. -/
def processCell (env : Env) (d1Vals d2Vals : List ℚ) (m n : ℕ) (i j : ℕ)
    (g : Grid) (ms : MState) : Except BErr (Grid × MState) :=
  let D := env.searchDirections.length
  let this_pt : Point := (d1Vals.getD i 0, d2Vals.getD j 0)
  let v := getAt g i j
  if v < maxNumOf D then
    let dl := dirLoop env ms d1Vals d2Vals m n i j this_pt
      env.searchDirections 0 (bitsOf D v) []
    match check_by_minresid env ms dl.2 this_pt false with
    | (Except.error e, _) => Except.error e
    | (Except.ok CheckResult.resolved, ms1) =>
      -- possibilities is None: set the value above the max number
      Except.ok (setAt g i j (sentinelOf D), ms1)
    | (Except.ok (CheckResult.unresolved ps), ms1) =>
      if ps ≠ [] ∧ env.maxBisections > 0 then
        match check_by_minresid env ms1 ps this_pt true with
        | (Except.error e, _) => Except.error e
        | (Except.ok CheckResult.resolved, ms2) =>
          Except.ok (setAt g i j (sentinelOf D), ms2)
        | (Except.ok (CheckResult.unresolved _), ms2) =>
          Except.ok (setAt g i j (ofBits dl.1), ms2)
      else
        -- still `isMapped[i, j] < maxNum`: record the checked directions
        Except.ok (setAt g i j (ofBits dl.1), ms1)
  else
    Except.ok (g, ms)

/-- Row-major traversal of the cells (`for i in range(0, m): for j in
range(0, n)`), flattened to one index list. -/
def cellSeq (m n : ℕ) : List (ℕ × ℕ) :=
  (List.range m).flatMap (fun i => (List.range n).map (fun j => (i, j)))

/-- Sequential processing of a list of cells, threading grid, map state and
possible exception. -/
def cellsGo (env : Env) (d1Vals d2Vals : List ℚ) (m n : ℕ) :
    List (ℕ × ℕ) → Grid → MState → Except BErr (Grid × MState)
  | [], g, ms => Except.ok (g, ms)
  | (i, j) :: rest, g, ms =>
    match processCell env d1Vals d2Vals m n i j g ms with
    | Except.error e => Except.error e
    | Except.ok gm => cellsGo env d1Vals d2Vals m n rest gm.1 gm.2

/-- One full sweep: `minresid_iteration(isMapped)`.  The dimensions are the
shape of the array, read off the nested-list representation. -/
def minresid_iteration (env : Env) (d1Vals d2Vals : List ℚ) (g : Grid)
    (ms : MState) : Except BErr (Grid × MState) :=
  let m := g.length
  let n := (g.getD 0 []).length
  cellsGo env d1Vals d2Vals m n (cellSeq m n) g ms

/-- Sum of squared entries of `isMapped`.  `np.linalg.norm` is the square
root of this sum; since the square root is strictly monotone the comparison
`norm_new > norm_old` of the source is equivalent to comparing these sums. -/
def sumsq (g : Grid) : ℕ := (g.map (fun row => (row.map (fun v => v * v)).sum)).sum

/-- The per-iteration count of unmapped points
(`if isMapped[i, j] <= maxNum: n_unmapped += 1`). -/
def countUnmapped (g : Grid) (maxNum : ℕ) : ℕ :=
  (g.map (fun row => (row.filter (fun v => v ≤ maxNum)).length)).sum

/-- The outer fixed-point loop `while norm_new > norm_old` of
`get_coverage_map`.  `norm_old` starts at -1 so the first sweep always runs.
Returns the final grid, state, `minresiditer` (number of sweeps executed)
and the last `n_unmapped` count (taken, as in the source, at the top of the
final loop iteration).  The structural fuel is a bound on the number of
iterations; `sweepLoop_no_fuel_error` shows the fuel chosen by
`get_coverage_map` is never exhausted. -/
def sweepLoop (env : Env) (d1Vals d2Vals : List ℚ) :
    ℕ → Grid → MState → ℕ → ℕ → ℤ → Except BErr (Grid × MState × ℕ × ℕ)
  | fuel, g, ms, minresiditer, n_unmapped, norm_old =>
    if ((sumsq g : ℤ)) > norm_old then
      match fuel with
      | 0 => Except.error BErr.fuel
      | fuel + 1 =>
        let cnt := countUnmapped g (maxNumOf env.searchDirections.length)
        match minresid_iteration env d1Vals d2Vals g ms with
        | Except.error e => Except.error e
        | Except.ok gm =>
          sweepLoop env d1Vals d2Vals fuel gm.1 gm.2 (minresiditer + 1) cnt
            ((sumsq g : ℤ))
    else Except.ok (g, ms, minresiditer, n_unmapped)

/-- The observable outcome of a `get_coverage_map` run: the deduplicated
coverage map (the return value), the parallel numbers list, and the values
the final status report is built from (`n_unmapped`, the sweep count, the
final `isMapped`), plus the bisection invocation counter. -/
structure RunResult where
  coverageMap : List (Point × Qty)
  numbersMap : List (Point × Option Qty)
  finalGrid : Grid
  sweeps : ℕ
  nUnmapped : ℕ
  bisectCalls : ℕ
deriving DecidableEq, Repr

/-- `get_coverage_map` for a fresh run (no stored `self.coverage_map` from a
previous run, so the initial-guess-map clause of the source reduces to
starting from empty maps).  `d1Vals`/`d2Vals` are the outputs of the
external `process_resolution`; the source reverses both before use. -/
def get_coverage_map (env : Env) (d1Vals d2Vals : List ℚ) :
    Except BErr RunResult :=
  let d1 := d1Vals.reverse
  let d2 := d2Vals.reverse
  let g0 : Grid := List.replicate d1.length (List.replicate d2.length 0)
  let D := env.searchDirections.length
  let fuel := d1.length * d2.length * sentinelOf D ^ 2 + 2
  match sweepLoop env d1 d2 fuel g0 MState.empty 0 0 (-1) with
  | Except.error e => Except.error e
  | Except.ok r =>
    let nd := dedupGo env.useNumbers
      (fun pt => retrieve_data r.2.1.nmap pt env.precision) r.2.1.cmap [] [] []
    Except.ok ⟨nd.1, nd.2, r.1, r.2.2.1, r.2.2.2, r.2.1.bisectCalls⟩

/-! ### Observers for run results -/

/-- The sweep count of a completed run. -/
def runSweeps : Except BErr RunResult → Option ℕ
  | Except.ok r => some r.sweeps
  | Except.error _ => none

/-- The final unmapped-point count of a completed run. -/
def runUnmapped : Except BErr RunResult → Option ℕ
  | Except.ok r => some r.nUnmapped
  | Except.error _ => none

/-- The bisection invocation count of a completed run. -/
def runBisectCalls : Except BErr RunResult → Option ℕ
  | Except.ok r => some r.bisectCalls
  | Except.error _ => none

/-- Whether the run completed without a propagating exception. -/
def runOk : Except BErr RunResult → Bool
  | Except.ok _ => true
  | Except.error _ => false

/-- The final `isMapped` value of cell `(i, j)` of a completed run. -/
def runGridAt (i j : ℕ) : Except BErr RunResult → Option ℕ
  | Except.ok r => some (getAt r.finalGrid i j)
  | Except.error _ => none

/-! ### Concrete environments for the counterexamples and witnesses -/

/-- A base environment with the default configuration of `MinResidMapper.__init__`
shrunk to two search directions; the solver always fails with residual 1. -/
def baseEnv : Env := {
  solve := fun _ _ => Except.error (some 1)
  residual := fun _ _ => 1
  initialGuess := fun _ => [[1]]
  changeXtoTheta := fun q => q
  sqrtQ := fun _ => 0
  useNumbers := false
  maxBisections := 3
  maxInitialGuesses := some 3
  extrapolateCoverages := false
  searchDirections := [(0, 0), (1, 0)]
  precision := 2 }

/-- Environment for C2: the solver fails exactly at the target point `(1, 0)`
and succeeds everywhere else, so every bisection step lands short of the
target and the outer loop runs to its bound. -/
def envC2 : Env :=
  { baseEnv with
      maxBisections := 2
      solve := fun p _ =>
        if p = ((1 : ℚ), (0 : ℚ)) then Except.error (some 1)
        else Except.ok ([5], [5]) }

/-- Environment for C1: every solve fails with a parseable residual equal to
the head of the seed plus 4, so the re-queued list records the order in
which candidates were attempted. -/
def envC1 : Env :=
  { baseEnv with solve := fun _ c => Except.error (some (c.headD 0 + 4)) }

/-- Environment for C3: one bisection budget, every solve fails, so every
delegated bisection fails with a `ValueError` carrying residual 1. -/
def envC3 : Env :=
  { baseEnv with maxBisections := 1, solve := fun _ _ => Except.error (some 9) }

/-- Environment for C10 (and the C10 witness): a zero bisection budget. -/
def envC10 : Env := { baseEnv with maxBisections := 0 }

/-! ### C10 -/

/-- C10: if `bisect_descriptor_line` runs with `max_bisections = 0` (or any
non-positive value), the inner loop of `get_next_valid_coverages` executes
zero iterations and the failure path then reads the local `resid` before
any assignment, so the call fails with an unbound-local-variable error
rather than the documented convergence `ValueError` carrying a residual. -/
theorem C10_nonpositive_budget_unbound_local (env : Env)
    (h : env.maxBisections ≤ 0) (new_descriptors old_descriptors : Point)
    (old_quantity : Qty) :
    get_next_valid_coverages env new_descriptors old_descriptors old_quantity
      = (Except.error BErr.unboundLocal, 0) := by
  unfold get_next_valid_coverages
  rw [Int.toNat_of_nonpos h]
  rfl

/-- Witness for C10 at a concrete input. -/
theorem C10_witness :
    envC10.maxBisections ≤ 0 ∧
      get_next_valid_coverages envC10 ((1 : ℚ), 0) (0, 0) [1]
        = (Except.error BErr.unboundLocal, 0) :=
  ⟨by decide,
   C10_nonpositive_budget_unbound_local envC10 (by decide) ((1 : ℚ), 0) (0, 0) [1]⟩

/-! ### C2 -/

/-- The outer-loop guard `PCiter <= 2**max_bisections` (evaluated over ℚ)
bounds `PCiter` by `2 ^ max_bisections.toNat`. -/
theorem qpow_guard {mb : ℤ} {k : ℕ} (h : (k : ℚ) ≤ (2 : ℚ) ^ mb) :
    k ≤ 2 ^ mb.toNat := by
  rcases le_or_lt 0 mb with hmb | hmb
  · have h2 : ((2 : ℚ)) ^ mb = ((2 ^ mb.toNat : ℕ) : ℚ) := by
      obtain ⟨n, rfl⟩ : ∃ n : ℕ, mb = (n : ℤ) :=
        ⟨mb.toNat, (Int.toNat_of_nonneg hmb).symm⟩
      rw [zpow_natCast, Int.toNat_natCast]
      push_cast
      ring
    rw [h2] at h
    exact_mod_cast h
  · have h1 : ((2 : ℚ)) ^ mb < 1 := zpow_lt_one_of_neg₀ (by norm_num) hmb
    have h0 : (k : ℚ) < 1 := lt_of_le_of_lt h h1
    have hk : k = 0 := by exact_mod_cast Nat.lt_one_iff.mp (by exact_mod_cast h0)
    simp [hk]

/-- The attempt counter of the inner bisection loop grows by at most the
remaining budget. -/
theorem gnvcLoop_iters_le (env : Env) (old_descriptors : Point) (q cov : Qty) :
    ∀ (budget : ℕ) (cur : Point) (lastR : Option ℚ) (iters : ℕ),
      (gnvcLoop env old_descriptors q cov cur lastR iters budget).2
        ≤ iters + budget := by
  intro budget
  induction budget with
  | zero =>
    intro cur lastR iters
    simp [gnvcLoop]
  | succ b ih =>
    intro cur lastR iters
    simp only [gnvcLoop]
    cases h : env.solve cur q with
    | ok cn => simp
    | error e =>
      simp only []
      have h2 := ih (midPoint old_descriptors cur)
        (some (env.residual cur cov)) (iters + 1)
      omega

/-- `PCiter` stays bounded by `2 ^ max_bisections.toNat + 1` throughout the
outer bisection loop. -/
theorem bdlLoop_iter_le (env : Env) (new_descriptors : Point) :
    ∀ (fuel : ℕ) (solved : Point) (q : Qty) (st : MState) (PCiter : ℕ),
      PCiter ≤ 2 ^ env.maxBisections.toNat + 1 →
      (bdlLoop env new_descriptors solved q st PCiter fuel).2.2
        ≤ 2 ^ env.maxBisections.toNat + 1 := by
  intro fuel
  induction fuel with
  | zero =>
    intro solved q st PCiter h
    simpa [bdlLoop] using h
  | succ b ih =>
    intro solved q st PCiter h
    by_cases hg : (PCiter : ℚ) ≤ (2 : ℚ) ^ env.maxBisections
    · have hPC : PCiter ≤ 2 ^ env.maxBisections.toNat := qpow_guard hg
      simp only [bdlLoop, if_pos hg]
      cases hgo : get_next_valid_coverages env new_descriptors solved q with
      | mk res n =>
        cases res with
        | error e => simp; omega
        | ok sq =>
          simp only []
          by_cases hs : sq.1 = new_descriptors
          · simp [hs]; omega
          · simp only [if_neg hs]
            exact ih _ _ _ _ (by omega)
    · simpa [bdlLoop, if_neg hg] using h

/-- C2 (amended): within each outer iteration the inner loop performs at most
`max_bisections` solve attempts before failing, but the outer continuation
loop of `bisect_descriptor_line` executes up to `2 ^ max_bisections + 1`
iterations (the guard is `PCiter <= 2**max_bisections` and `PCiter` is
incremented after the test), not `2 ^ max_bisections`. -/
theorem C2_loop_bounds :
    (∀ (env : Env) (st : MState) (new_descriptors old_descriptors : Point)
        (initial_guess_quantity : Qty),
      (bisect_descriptor_line env st new_descriptors old_descriptors
          initial_guess_quantity).2.2 ≤ 2 ^ env.maxBisections.toNat + 1) ∧
    (∀ (env : Env) (new_descriptors old_descriptors : Point) (old_quantity : Qty),
      (get_next_valid_coverages env new_descriptors old_descriptors
          old_quantity).2 ≤ env.maxBisections.toNat) := by
  constructor
  · intro env st new_descriptors old_descriptors initial_guess_quantity
    exact bdlLoop_iter_le env new_descriptors _ _ _ _ 0 (Nat.zero_le _)
  · intro env new_descriptors old_descriptors old_quantity
    unfold get_next_valid_coverages
    simpa using gnvcLoop_iters_le env old_descriptors old_quantity _
      env.maxBisections.toNat new_descriptors none 0

set_option maxRecDepth 100000 in
set_option maxHeartbeats 1000000 in
/-- C2 (counterexample): with `max_bisections = 2` the outer loop of
`bisect_descriptor_line` executes 5 iterations, exceeding the claimed bound
`2 ^ max_bisections = 4`. -/
theorem C2_counterexample :
    envC2.maxBisections = 2 ∧
    (bisect_descriptor_line envC2 MState.empty ((1 : ℚ), 0) (0, 0) [1]).2.2 = 5 ∧
    ¬ (bisect_descriptor_line envC2 MState.empty ((1 : ℚ), 0) (0, 0) [1]).2.2
        ≤ 2 ^ (2 : ℕ) := by
  have h : (bisect_descriptor_line envC2 MState.empty ((1 : ℚ), 0) (0, 0) [1]).2.2
      = 5 := by with_unfolding_all decide
  exact ⟨rfl, h, by rw [h]; norm_num⟩

/-! ### C1 -/

set_option maxRecDepth 100000 in
/-- C1 (code evaluated at the failing input): `check_by_minresid` attempts
candidates in the order of the given list, not in ascending-residual order.
With candidates of residuals `[2, 1]` the source `(0, 0)` of the
residual-2 candidate is logged/attempted first (see `statusLog`), and the
re-queued list keeps that attempt order, although the residual-1 candidate
from `(5, 5)` should have been tried first per the docstring. -/
theorem C1_attempt_order_is_list_order :
    check_by_minresid envC1 MState.empty
        [(2, ((0 : ℚ), 0), [1]), (1, (5, 5), [2])] (9, 9) false
      = (Except.ok (CheckResult.unresolved [(5, (0, 0), [1]), (6, (5, 5), [2])]),
         { cmap := [], nmap := [], bisectCalls := 0,
           statusLog := [(0, 0), (5, 5)] }) := by
  with_unfolding_all decide

/-! ### C3 -/

set_option maxRecDepth 100000 in
/-- C3 (counterexample): with `bisect = true`, two non-self candidates and a
failing bisection budget of 1, the failure of the delegated
`bisect_descriptor_line` on the first candidate is caught, the candidate is
re-queued, and the second candidate is also bisected (`bisectCalls = 2`);
the call returns the unresolved list instead of propagating the error. -/
theorem C3_counterexample :
    check_by_minresid envC3 MState.empty
        [(2, ((0 : ℚ), 0), [1]), (1, (5, 5), [2])] (9, 9) true
      = (Except.ok (CheckResult.unresolved [(1, (0, 0), [1]), (1, (5, 5), [2])]),
         { cmap := [], nmap := [], bisectCalls := 2,
           statusLog := [(0, 0), (5, 5)] }) := by
  with_unfolding_all decide

/-- C3 (amended): when `bisect` is true and the delegated bisection for a
fresh non-self candidate fails with a `ValueError` whose message carries a
parseable residual, `check_by_minresid` catches the error, re-queues the
candidate with that residual, marks the source tried, and continues with
the remaining candidates (the failure is not terminal for the point). -/
theorem C3_bisect_failure_recovered (env : Env) (st : MState) (this_pt : Point)
    (r ρ : ℚ) (sol_pt : Point) (c : Qty) (rest : List Cand)
    (tried : List Point) (nps : List Cand) (st2 : MState) (n : ℕ)
    (hmem : sol_pt ∉ tried) (hne : sol_pt ≠ this_pt)
    (hbdl : bisect_descriptor_line env
        { st with statusLog := st.statusLog ++ [sol_pt] } this_pt sol_pt c
      = (Except.error (BErr.valueError (some ρ)), st2, n)) :
    cbmLoop env this_pt true ((r, sol_pt, c) :: rest) st tried nps
      = cbmLoop env this_pt true rest st2 (tried ++ [sol_pt])
          (nps ++ [(ρ, sol_pt, c)]) := by
  have hne2 : ¬(true = false ∨ this_pt = sol_pt) := by
    simp [hne.symm]
  simp only [cbmLoop, if_neg hmem, if_neg hne2, hbdl]
  rw [if_pos (Ne.symm hne), if_pos hne]

/-- Witness for the amended C3 at a concrete input: the first (and only)
candidate of a bisect-enabled call fails, and the loop moves on with the
candidate re-queued at its new residual. -/
theorem C3_witness :
    cbmLoop envC3 ((9 : ℚ), 9) true [(2, ((0 : ℚ), 0), [1])] MState.empty [] []
      = cbmLoop envC3 ((9 : ℚ), 9) true []
          { cmap := [], nmap := [], bisectCalls := 1, statusLog := [(0, 0)] }
          [(0, 0)] [(1, (0, 0), [1])] :=
  C3_bisect_failure_recovered envC3 MState.empty ((9 : ℚ), 9) 2 1 ((0 : ℚ), 0)
    [1] [] [] [] _ 1 (by simp) (by decide) (by with_unfolding_all decide)

/-! ### C4 -/

/-- Invariant-carrying induction for the deduplication loop: with `pts` equal
to the first components of `nodups` and `nodups` duplicate-free, the
resulting list is duplicate-free (by exact point equality) and its first
match for any point is the first match of `nodups`, then of the remaining
input. -/
theorem dedupGo_pairwise_find (un : Bool) (retr : Point → Option Qty) :
    ∀ (l : List (Point × Qty)) (nodups : List (Point × Qty))
      (nn : List (Point × Option Qty)),
      nodups.Pairwise (fun a b => a.1 ≠ b.1) →
      ((dedupGo un retr l (nodups.map Prod.fst) nodups nn).1.Pairwise
          (fun a b => a.1 ≠ b.1) ∧
        ∀ q : Point,
          (dedupGo un retr l (nodups.map Prod.fst) nodups nn).1.find?
              (fun e => e.1 == q)
            = (nodups.find? (fun e => e.1 == q)).or
                (l.find? (fun e => e.1 == q))) := by
  intro l
  induction l with
  | nil =>
    intro nodups nn hpw
    constructor
    · simpa [dedupGo] using hpw
    · intro q
      simp [dedupGo]
  | cons hd tl ih =>
    obtain ⟨pt, cvgs⟩ := hd
    intro nodups nn hpw
    by_cases hmem : pt ∈ nodups.map Prod.fst
    · have hfind : (nodups.find? (fun e => e.1 == pt)).isSome := by
        rw [List.find?_isSome]
        obtain ⟨e, he, hfst⟩ := List.mem_map.mp hmem
        exact ⟨e, he, by simp [hfst]⟩
      have step := ih nodups nn hpw
      constructor
      · simpa [dedupGo, hmem] using step.1
      · intro q
        have hq := step.2 q
        by_cases hqe : pt = q
        · subst hqe
          simp only [dedupGo, if_pos hmem]
          obtain ⟨e, he⟩ := Option.isSome_iff_exists.mp hfind
          rw [hq, he]
          simp
        · simp only [dedupGo, if_pos hmem]
          rw [hq, List.find?_cons_of_neg _ (by simpa using hqe)]
    · have hpw2 : (nodups ++ [(pt, cvgs)]).Pairwise (fun a b => a.1 ≠ b.1) := by
        rw [List.pairwise_append]
        refine ⟨hpw, by simp, ?_⟩
        intro a ha b hb
        simp only [List.mem_singleton] at hb
        subst hb
        intro hc
        exact hmem (List.mem_map.mpr ⟨a, ha, hc⟩)
      have step := ih (nodups ++ [(pt, cvgs)])
        (if un then nn ++ [(pt, retr pt)] else nn) hpw2
      have hmapeq : (nodups ++ [(pt, cvgs)]).map Prod.fst
          = nodups.map Prod.fst ++ [pt] := by simp
      constructor
      · have := step.1
        rw [hmapeq] at this
        simpa [dedupGo, hmem] using this
      · intro q
        have hq := step.2 q
        rw [hmapeq] at hq
        simp only [dedupGo, if_neg hmem]
        rw [hq, List.find?_append,
          show (pt, cvgs) :: tl = [(pt, cvgs)] ++ tl from rfl,
          List.find?_append, Option.or_assoc]

/-- C4 (amended): the end-of-run deduplication keeps the first entry per
distinct *exact* point: the retained entries have pairwise distinct exact
points, and for every point the first retained match is the first match of
the original map (first occurrence wins). -/
theorem C4_dedup_exact_first_wins (coverage_map : List (Point × Qty)) :
    (removeDuplicates coverage_map).Pairwise (fun a b => a.1 ≠ b.1) ∧
    ∀ q : Point,
      (removeDuplicates coverage_map).find? (fun e => e.1 == q)
        = coverage_map.find? (fun e => e.1 == q) := by
  have h := dedupGo_pairwise_find false (fun _ => none) coverage_map [] []
    (by simp)
  constructor
  · exact h.1
  · intro q
    have h2 := h.2 q
    simpa [removeDuplicates] using h2

set_option maxRecDepth 100000 in
/-- C4 (counterexample): two map entries whose points differ exactly but
coincide after rounding to 2 decimals are both retained by the
deduplication, so two retained entries can share a rounded point. -/
theorem C4_counterexample :
    removeDuplicates [(((1 : ℚ)/1000, (0 : ℚ)), [1]), ((2/1000, 0), [2])]
        = [(((1 : ℚ)/1000, (0 : ℚ)), [1]), ((2/1000, 0), [2])] ∧
    roundPoint 2 ((1 : ℚ)/1000, 0) = roundPoint 2 ((2 : ℚ)/1000, 0) ∧
    ((1 : ℚ)/1000, (0 : ℚ)) ≠ ((2 : ℚ)/1000, 0) := by
  refine ⟨?_, ?_, ?_⟩ <;> with_unfolding_all decide

/-! ### C9 -/

/-- C9: for a non-empty coverage map and a positive `max_initial_guesses`,
`get_initial_coverage_from_map` returns one guess per map entry (a
permutation of the stored quantities), sorted by ascending residual; the
cutoff `max(max_initial_guesses, len(entries))` never truncates the list. -/
theorem C9_initial_guesses_never_truncated (resid : Qty → ℚ) (k : ℤ)
    (coverage_map : List (Point × Qty)) (hk : 0 < k) (hne : coverage_map ≠ []) :
    (get_initial_coverage_from_map resid (some k) coverage_map).length
        = coverage_map.length ∧
    (get_initial_coverage_from_map resid (some k) coverage_map).Perm
        (coverage_map.map (fun pc => pc.2)) ∧
    (get_initial_coverage_from_map resid (some k) coverage_map).Pairwise
        (fun a b => resid a ≤ resid b) := by
  unfold get_initial_coverage_from_map
  set L := coverage_map.map (fun pc => (resid pc.2, pc.2)) with hL
  set sorted := L.mergeSort (fun a b => a.1 ≤ b.1) with hsorted
  have hperm : sorted.Perm L := List.mergeSort_perm L _
  have hlen : sorted.length = coverage_map.length := by
    rw [List.length_mergeSort, hL, List.length_map]
  have hfull :
      pySlice (sorted.map (fun pc => pc.2))
          (if k ≠ 0 then max k (sorted.length : ℤ) else (sorted.length : ℤ))
        = sorted.map (fun pc => pc.2) := by
    rw [if_pos (by omega : k ≠ 0)]
    unfold pySlice
    rw [if_pos (by omega : (0 : ℤ) ≤ max k (sorted.length : ℤ))]
    apply List.take_of_length_le
    have : (sorted.length : ℤ) ≤ max k (sorted.length : ℤ) := le_max_right _ _
    simp only [List.length_map]
    omega
  rw [hfull]
  refine ⟨by simp [hlen], ?_, ?_⟩
  · have := hperm.map (fun pc : ℚ × Qty => pc.2)
    rw [hL] at this
    simpa [List.map_map, Function.comp] using this
  · have hsort : sorted.Pairwise (fun a b : ℚ × Qty => (a.1 ≤ b.1 : Bool) = true) :=
      List.sorted_mergeSort
        (by intro a b c hab hbc
            simp only [decide_eq_true_eq] at hab hbc ⊢
            exact le_trans hab hbc)
        (by intro a b
            simp only [Bool.or_eq_true, decide_eq_true_eq]
            exact le_total a.1 b.1)
        L
    have hmemL : ∀ x ∈ sorted, x.1 = resid x.2 := by
      intro x hx
      have hxL : x ∈ L := hperm.mem_iff.mp hx
      rw [hL] at hxL
      obtain ⟨pc, _, hpc⟩ := List.mem_map.mp hxL
      rw [← hpc]
    have hsort2 : sorted.Pairwise (fun a b : ℚ × Qty => resid a.2 ≤ resid b.2) := by
      refine hsort.imp_of_mem ?_
      intro a b ha hb hab
      simp only [decide_eq_true_eq] at hab
      rw [← hmemL a ha, ← hmemL b hb]
      exact hab
    exact hsort2.map _ (fun a b h => h)

/-- Witness for C9 at a concrete input: three entries with residuals equal to
the head of the stored vector; the result is the full sorted list even with
`max_initial_guesses = 2`. -/
theorem C9_witness :
    (get_initial_coverage_from_map (fun q => q.headD 0) (some 2)
          [(((0 : ℚ), (0 : ℚ)), [3]), ((1, 0), [1]), ((2, 0), [2])]).length = 3 ∧
    (get_initial_coverage_from_map (fun q => q.headD 0) (some 2)
          [(((0 : ℚ), (0 : ℚ)), [3]), ((1, 0), [1]), ((2, 0), [2])]).Perm
        ([(((0 : ℚ), (0 : ℚ)), [3]), ((1, 0), [1]), ((2, 0), [2])].map
          (fun pc => pc.2)) ∧
    (get_initial_coverage_from_map (fun q => q.headD 0) (some 2)
          [(((0 : ℚ), (0 : ℚ)), [3]), ((1, 0), [1]), ((2, 0), [2])]).Pairwise
        (fun a b => a.headD 0 ≤ b.headD 0) := by
  have h := C9_initial_guesses_never_truncated (fun q => q.headD 0) 2
    [(((0 : ℚ), (0 : ℚ)), [3]), ((1, 0), [1]), ((2, 0), [2])]
    (by norm_num) (by simp)
  simpa using h

/-! ### C8 -/

/-- Componentwise identity behind the extrapolation: seeding the slope with
`(q1 - q0) / dy` and advancing by `t * dy` lands exactly on the linear
interpolant. -/
theorem extrapolate_zip_aux (t dy : ℝ) (hdy : dy ≠ 0) :
    ∀ (q0 q1 : List ℝ), q0.length = q1.length →
      List.zipWith (fun q mi => q + mi * (t * dy)) q0
          ((List.zipWith (fun a b => a - b) q1 q0).map (fun dxi => dxi / dy))
        = List.zipWith (fun a b => a + t * (b - a)) q0 q1 := by
  intro q0
  induction q0 with
  | nil =>
    intro q1 h
    simp
  | cons a q0 ih =>
    intro q1 h
    cases q1 with
    | nil => simp at h
    | cons b q1 =>
      simp only [List.zipWith_cons_cons, List.map_cons]
      refine congrArg₂ List.cons ?_ (ih q1 (by simpa using h))
      field_simp
      ring

/-- C8: with exact arithmetic, if the quantity varies exactly linearly along
the descriptor line through `d0` and `d1` (the value at the point
`d0 + t * (d1 - d0)` being `q0 + t * (q1 - q0)`), then
`extrapolate_coverages` applied to a third collinear point on the same side
(`t ≥ 0`) returns exactly that point's quantity. -/
theorem C8_extrapolation_exact_on_line (d0 d1 d2 : ℝ × ℝ) (q0 q1 : List ℝ)
    (t : ℝ) (ht : 0 ≤ t) (hne : d0 ≠ d1)
    (h1 : d2.1 - d0.1 = t * (d1.1 - d0.1))
    (h2 : d2.2 - d0.2 = t * (d1.2 - d0.2))
    (hlen : q0.length = q1.length) :
    extrapolate_coverages Real.sqrt d0 q0 d1 q1 d2
      = List.zipWith (fun a b => a + t * (b - a)) q0 q1 := by
  have hd : d1.1 - d0.1 ≠ 0 ∨ d1.2 - d0.2 ≠ 0 := by
    by_contra hc
    push_neg at hc
    exact hne (Prod.ext (by linarith [hc.1]) (by linarith [hc.2]))
  have hA : 0 < (d1.1 - d0.1) ^ 2 + (d1.2 - d0.2) ^ 2 := by
    rcases hd with h | h
    · have h3 : 0 < (d1.1 - d0.1) ^ 2 :=
        lt_of_le_of_ne (sq_nonneg _) (Ne.symm (pow_ne_zero 2 h))
      have h4 := sq_nonneg (d1.2 - d0.2)
      linarith
    · have h3 : 0 < (d1.2 - d0.2) ^ 2 :=
        lt_of_le_of_ne (sq_nonneg _) (Ne.symm (pow_ne_zero 2 h))
      have h4 := sq_nonneg (d1.1 - d0.1)
      linarith
  have hdy : Real.sqrt ((d1.1 - d0.1) ^ 2 + (d1.2 - d0.2) ^ 2) ≠ 0 :=
    ne_of_gt (Real.sqrt_pos.mpr hA)
  have hdy2 : Real.sqrt ((d2.1 - d0.1) ^ 2 + (d2.2 - d0.2) ^ 2)
      = t * Real.sqrt ((d1.1 - d0.1) ^ 2 + (d1.2 - d0.2) ^ 2) := by
    rw [h1, h2,
      show (t * (d1.1 - d0.1)) ^ 2 + (t * (d1.2 - d0.2)) ^ 2
          = t ^ 2 * ((d1.1 - d0.1) ^ 2 + (d1.2 - d0.2) ^ 2) from by ring,
      Real.sqrt_mul (sq_nonneg t), Real.sqrt_sq ht]
  unfold extrapolate_coverages
  simp only []
  rw [hdy2]
  exact extrapolate_zip_aux t _ hdy q0 q1 hlen

/-- Witness for C8 at a concrete input: `d0 = (0,0)`, `d1 = (1,0)`,
`d2 = (2,0)`, quantities `[1]` and `[3]` varying linearly give exactly `[5]`
at `d2`. -/
theorem C8_witness :
    extrapolate_coverages Real.sqrt ((0 : ℝ), 0) [1] (1, 0) [3] (2, 0)
      = [(5 : ℝ)] := by
  have h := C8_extrapolation_exact_on_line ((0 : ℝ), 0) (1, 0) (2, 0) [1] [3] 2
    (by norm_num) (by simp [Prod.ext_iff]) (by norm_num) (by norm_num) (by simp)
  rw [h]
  norm_num

/-! ### Bitmask machinery for the monotonicity and termination claims -/

/-- Folding the binary digits from an arbitrary accumulator. -/
theorem ofBits_foldl (l : List ℕ) :
    ∀ acc : ℕ, l.foldl (fun a b => 2 * a + b) acc
      = acc * 2 ^ l.length + ofBits l := by
  induction l with
  | nil => intro acc; simp [ofBits]
  | cons b l ih =>
    intro acc
    have h1 : (b :: l).foldl (fun a b => 2 * a + b) acc
        = l.foldl (fun a b => 2 * a + b) (2 * acc + b) := rfl
    have h2 : ofBits (b :: l) = l.foldl (fun a b => 2 * a + b) b := by
      simp [ofBits]
    rw [h1, ih (2 * acc + b), h2, ih b]
    simp [List.length_cons, pow_succ]
    ring

/-- `ofBits` of a digit list with a leading digit. -/
theorem ofBits_cons (b : ℕ) (l : List ℕ) :
    ofBits (b :: l) = b * 2 ^ l.length + ofBits l := by
  have h : ofBits (b :: l) = l.foldl (fun a b => 2 * a + b) (2 * 0 + b) := rfl
  rw [h, show 2 * 0 + b = b from by ring, ofBits_foldl]

theorem bitsOf_length (D v : ℕ) : (bitsOf D v).length = D := by
  simp [bitsOf]

/-- Peeling the most significant digit off `bitsOf`. -/
theorem bitsOf_succ (D v : ℕ) :
    bitsOf (D + 1) v = (if v.testBit D then 1 else 0) :: bitsOf D v := by
  unfold bitsOf
  rw [List.range_succ_eq_map, List.map_cons, List.map_map]
  refine congrArg₂ List.cons ?_ ?_
  · simp
  · simp only [List.map_inj_left, Function.comp]
    intro k hk
    have h2 : D + 1 - 1 - k.succ = D - 1 - k := by omega
    rw [h2]

theorem bitsOf_le_one (D v : ℕ) : ∀ b ∈ bitsOf D v, b ≤ 1 := by
  intro b hb
  simp only [bitsOf, List.mem_map] at hb
  obtain ⟨k, _, hk⟩ := hb
  split at hk <;> omega

/-- Reading the digit list back yields the value modulo `2 ^ D`. -/
theorem ofBits_bitsOf (D : ℕ) : ∀ v : ℕ, ofBits (bitsOf D v) = v % 2 ^ D := by
  induction D with
  | zero => intro v; simp [bitsOf, ofBits, Nat.mod_one]
  | succ D ih =>
    intro v
    rw [bitsOf_succ, ofBits_cons, bitsOf_length, ih v, Nat.mod_pow_succ]
    have hbit : (if v.testBit D then 1 else 0) = v / 2 ^ D % 2 := by
      rw [Nat.testBit_to_div_mod]
      rcases Nat.mod_two_eq_zero_or_one (v / 2 ^ D) with h | h <;> simp [h]
    rw [hbit]
    ring

/-- Reading the digit list back is faithful below `2 ^ D`. -/
theorem ofBits_bitsOf_of_lt {D v : ℕ} (h : v < 2 ^ D) :
    ofBits (bitsOf D v) = v := by
  rw [ofBits_bitsOf, Nat.mod_eq_of_lt h]

/-- `ofBits` is monotone under pointwise digit growth. -/
theorem ofBits_le_of_forall2 {l1 l2 : List ℕ}
    (h : List.Forall₂ (fun a b => a ≤ b) l1 l2) : ofBits l1 ≤ ofBits l2 := by
  induction h with
  | nil => exact Nat.le_refl _
  | cons hab htl ih =>
    rw [ofBits_cons, ofBits_cons, htl.length_eq]
    exact Nat.add_le_add (Nat.mul_le_mul_right _ hab) ih

/-- A digit list of zeros and ones denotes a value below `2 ^ length`. -/
theorem ofBits_lt_two_pow {l : List ℕ} (h : ∀ b ∈ l, b ≤ 1) :
    ofBits l < 2 ^ l.length := by
  induction l with
  | nil => simp [ofBits]
  | cons b tl ih =>
    rw [ofBits_cons]
    have hb : b ≤ 1 := h b (by simp)
    have htl : ofBits tl < 2 ^ tl.length := ih (fun x hx => h x (by simp [hx]))
    have : b * 2 ^ tl.length ≤ 2 ^ tl.length := by
      calc b * 2 ^ tl.length ≤ 1 * 2 ^ tl.length :=
            Nat.mul_le_mul_right _ hb
        _ = 2 ^ tl.length := one_mul _
    simp only [List.length_cons, pow_succ]
    omega

/-- The digit sum is monotone under pointwise growth. -/
theorem sum_le_of_forall2 {l1 l2 : List ℕ}
    (h : List.Forall₂ (fun a b => a ≤ b) l1 l2) : l1.sum ≤ l2.sum := by
  induction h with
  | nil => exact Nat.le_refl _
  | cons hab htl ih => simp only [List.sum_cons]; omega

/-- Strict growth of the digit sum under pointwise growth with a change. -/
theorem sum_lt_of_forall2_ne {l1 l2 : List ℕ}
    (h : List.Forall₂ (fun a b => a ≤ b) l1 l2) (hne : l1 ≠ l2) :
    l1.sum < l2.sum := by
  induction h with
  | nil => exact absurd rfl hne
  | cons hab htl ih =>
    rename_i a b tl1 tl2
    by_cases he : tl1 = tl2
    · subst he
      have hab2 : a ≠ b := by
        intro hc
        exact hne (by rw [hc])
      simp only [List.sum_cons]
      have := List.Forall₂.length_eq htl
      omega
    · have h1 := ih he
      simp only [List.sum_cons]
      omega

/-- The digit sum of a zero/one list is bounded by its length. -/
theorem sum_le_length {l : List ℕ} (h : ∀ b ∈ l, b ≤ 1) : l.sum ≤ l.length := by
  induction l with
  | nil => simp
  | cons b tl ih =>
    have hb : b ≤ 1 := h b (by simp)
    have := ih (fun x hx => h x (by simp [hx]))
    simp only [List.sum_cons, List.length_cons]
    omega

/-- Bit `k` of `ofBits l` (digits most-significant first, zero/one entries)
is digit `length - 1 - k`. -/
theorem testBit_ofBits :
    ∀ (l : List ℕ), (∀ b ∈ l, b ≤ 1) → ∀ k, k < l.length →
      ((ofBits l).testBit k = true ↔ l.getD (l.length - 1 - k) 0 = 1) := by
  intro l
  induction l with
  | nil => intro h k hk; simp at hk
  | cons b tl ih =>
    intro h k hk
    have hb : b ≤ 1 := h b (by simp)
    have h1 : ∀ x ∈ tl, x ≤ 1 := fun x hx => h x (by simp [hx])
    have htl : ofBits tl < 2 ^ tl.length := ofBits_lt_two_pow h1
    rw [ofBits_cons]
    by_cases hkl : k < tl.length
    · have hidx : (b :: tl).length - 1 - k = (tl.length - 1 - k) + 1 := by
        simp only [List.length_cons]
        omega
      rw [hidx]
      have hgd : (b :: tl).getD (tl.length - 1 - k + 1) 0
          = tl.getD (tl.length - 1 - k) 0 := rfl
      rw [hgd, ← ih h1 k hkl]
      have hdiv : (b * 2 ^ tl.length + ofBits tl) / 2 ^ k
          = b * 2 ^ (tl.length - k) + ofBits tl / 2 ^ k := by
        rw [show tl.length = (tl.length - k) + k from by omega, pow_add,
          ← Nat.mul_assoc, Nat.mul_comm (b * 2 ^ (tl.length - k)) (2 ^ k),
          Nat.mul_add_div (Nat.two_pow_pos k)]
        rw [show tl.length - k + k - k = tl.length - k from by omega]
      rw [Nat.testBit_to_div_mod, Nat.testBit_to_div_mod, hdiv]
      simp only [decide_eq_true_eq]
      generalize hgen : b * 2 ^ (tl.length - k) = x
      have hpar : x % 2 = 0 := by
        rw [← hgen, show tl.length - k = (tl.length - k - 1) + 1 from by omega,
          pow_succ, ← Nat.mul_assoc]
        exact Nat.mul_mod_left _ 2
      omega
    · have hkeq : k = tl.length := by
        simp only [List.length_cons] at hk
        omega
      subst hkeq
      have hidx : (b :: tl).length - 1 - tl.length = 0 := by
        simp only [List.length_cons]
        omega
      rw [hidx]
      have hgd : (b :: tl).getD 0 0 = b := rfl
      rw [hgd, Nat.testBit_to_div_mod, Nat.mul_comm b,
        Nat.mul_add_div (Nat.two_pow_pos tl.length), Nat.div_eq_of_lt htl]
      rcases (by omega : b = 0 ∨ b = 1) with rfl | rfl <;> simp

/-- Entry `k` of the padded digit list. -/
theorem bitsOf_getElem (D v k : ℕ) (hk : k < D) :
    (bitsOf D v).getD k 0 = if v.testBit (D - 1 - k) then 1 else 0 := by
  rw [List.getD_eq_getElem _ _ (by simpa [bitsOf_length] using hk)]
  simp [bitsOf]

/-- `2 ^ D` is the successor of `maxNum`. -/
theorem maxNum_succ (D : ℕ) : maxNumOf D + 1 = 2 ^ D := by
  have : 1 ≤ 2 ^ D := Nat.one_le_two_pow
  unfold maxNumOf
  omega

/-- The sentinel dominates `maxNum`. -/
theorem maxNum_lt_sentinel (D : ℕ) : maxNumOf D < sentinelOf D := by
  have h1 : 1 ≤ 2 ^ D := Nat.one_le_two_pow
  have h2 : 2 ^ D < 2 ^ (D + 1) := by
    rw [pow_succ]
    omega
  unfold maxNumOf sentinelOf
  omega

/-- Digits of zeros and ones map back and forth faithfully. -/
theorem bitsOf_ofBits {l : List ℕ} (h1 : ∀ b ∈ l, b ≤ 1) :
    bitsOf l.length (ofBits l) = l := by
  apply List.ext_getElem (by simp [bitsOf_length])
  intro k hk1 hk2
  have hk : k < l.length := hk2
  have hb := testBit_ofBits l h1 (l.length - 1 - k)
    (by omega)
  have hidx : l.length - 1 - (l.length - 1 - k) = k := by omega
  rw [hidx] at hb
  have hget : (bitsOf l.length (ofBits l))[k]
      = if (ofBits l).testBit (l.length - 1 - k) then 1 else 0 := by
    rw [← List.getD_eq_getElem _ 0 hk1, bitsOf_getElem _ _ _ hk]
  rw [hget]
  have hlk : l.getD k 0 = l[k] := List.getD_eq_getElem _ _ hk
  rcases (by have := h1 l[k] (List.getElem_mem hk); omega : l[k] = 0 ∨ l[k] = 1)
    with h0 | h0
  · rw [if_neg]
    · omega
    · intro hc
      have := hb.mp hc
      omega
  · rw [if_pos]
    · omega
    · exact hb.mpr (by omega)

/-- What one `minresid_iteration` pass may write into a cell: leave it,
force the terminal sentinel (only from below `maxNum`), or re-encode a
digit list obtained from the old one by setting some digits to 1. -/
def cellStep (D : ℕ) (v w : ℕ) : Prop :=
  w = v ∨
  (v < maxNumOf D ∧ w = sentinelOf D) ∨
  (v < maxNumOf D ∧ ∃ l : List ℕ,
    List.Forall₂ (fun a b => a ≤ b) (bitsOf D v) l ∧
    (∀ b ∈ l, b ≤ 1) ∧ w = ofBits l)

/-- Cell potential: number of set direction bits, with the sentinel counted
as `D + 1`. -/
def phiOf (D v : ℕ) : ℕ := if v ≤ maxNumOf D then (bitsOf D v).sum else D + 1

/-- The consequences of `cellStep` that compose across sweeps: the stored
integer never decreases, set bits stay set, the potential grows strictly on
any change, and the value stays below the sentinel. -/
def cellMono (D : ℕ) (v w : ℕ) : Prop :=
  v ≤ w ∧ (∀ k, v.testBit k = true → w.testBit k = true) ∧
  phiOf D v ≤ phiOf D w ∧ (v ≠ w → phiOf D v < phiOf D w) ∧
  w ≤ max v (sentinelOf D)

theorem cellMono_refl (D v : ℕ) : cellMono D v v :=
  ⟨Nat.le_refl _, fun _ h => h, Nat.le_refl _, fun h => absurd rfl h,
    le_max_left _ _⟩

theorem cellMono_trans {D u v w : ℕ} (h1 : cellMono D u v) (h2 : cellMono D v w) :
    cellMono D u w := by
  obtain ⟨a1, b1, c1, d1, e1⟩ := h1
  obtain ⟨a2, b2, c2, d2, e2⟩ := h2
  refine ⟨le_trans a1 a2, fun k hk => b2 k (b1 k hk), le_trans c1 c2, ?_, ?_⟩
  · intro hne
    by_cases huv : u = v
    · subst huv
      exact lt_of_lt_of_le (d2 hne) (le_refl _)
    · exact lt_of_lt_of_le (d1 huv) c2
  · omega

/-- Pointwise access to a `Forall₂` relation via `getD`. -/
theorem forall2_getD {R : ℕ → ℕ → Prop} {l1 l2 : List ℕ}
    (h : List.Forall₂ R l1 l2) {i : ℕ} (hi : i < l1.length) :
    R (l1.getD i 0) (l2.getD i 0) := by
  rw [List.getD_eq_getElem _ _ hi,
    List.getD_eq_getElem _ _ (by rw [← h.length_eq]; exact hi)]
  exact (List.forall₂_iff_get.mp h).2 i hi _

/-- A value strictly below `maxNum` has all its set bits below `D`. -/
theorem testBit_lt_D {D v k : ℕ} (hv : v < maxNumOf D)
    (hk : v.testBit k = true) : k < D := by
  by_contra hc
  push_neg at hc
  have h1 : v < 2 ^ D := by
    have := maxNum_succ D
    omega
  have h2 : (2 : ℕ) ^ D ≤ 2 ^ k := Nat.pow_le_pow_right (by norm_num) hc
  rw [Nat.testBit_lt_two_pow (lt_of_lt_of_le h1 h2)] at hk
  exact Bool.false_ne_true hk

/-- The key absorption: every `cellStep` write satisfies `cellMono`. -/
theorem cellStep_cellMono {D v w : ℕ} (h : cellStep D v w) : cellMono D v w := by
  rcases h with rfl | ⟨hv, rfl⟩ | ⟨hv, l, hf, hl1, rfl⟩
  · exact cellMono_refl _ _
  · have hvlt : v < 2 ^ D := by
      have := maxNum_succ D
      omega
    have hphiv : phiOf D v ≤ D := by
      unfold phiOf
      rw [if_pos (by omega)]
      have := sum_le_length (bitsOf_le_one D v)
      rw [bitsOf_length] at this
      exact this
    have hphis : phiOf D (sentinelOf D) = D + 1 := by
      unfold phiOf
      rw [if_neg (by have := maxNum_lt_sentinel D; omega)]
    refine ⟨?_, ?_, ?_, ?_, le_max_right _ _⟩
    · have := maxNum_lt_sentinel D
      omega
    · intro k hk
      have hkD : k < D := testBit_lt_D hv hk
      unfold sentinelOf
      rw [Nat.testBit_two_pow_sub_one]
      simp
      omega
    · omega
    · intro _
      omega
  · have hlen : l.length = D := by
      have := hf.length_eq
      rw [bitsOf_length] at this
      omega
    have hvlt : v < 2 ^ D := by
      have := maxNum_succ D
      omega
    have hwlt : ofBits l < 2 ^ D := by
      have := ofBits_lt_two_pow hl1
      rw [hlen] at this
      exact this
    have hround : ofBits (bitsOf D v) = v := ofBits_bitsOf_of_lt hvlt
    have hround2 : bitsOf D (ofBits l) = l := by
      have := bitsOf_ofBits hl1
      rw [hlen] at this
      exact this
    have hvle : v ≤ ofBits l := by
      rw [← hround]
      exact ofBits_le_of_forall2 hf
    have hwmax : ofBits l ≤ maxNumOf D := by
      have := maxNum_succ D
      omega
    refine ⟨hvle, ?_, ?_, ?_, ?_⟩
    · intro k hk
      have hkD : k < D := testBit_lt_D hv hk
      rw [testBit_ofBits l hl1 k (by omega)]
      have hidx : l.length - 1 - k = D - 1 - k := by omega
      rw [hidx]
      have hbit : (bitsOf D v).getD (D - 1 - k) 0 = 1 := by
        rw [bitsOf_getElem D v _ (by omega),
          show D - 1 - (D - 1 - k) = k from by omega, hk]
        simp
      have hford := forall2_getD hf (i := D - 1 - k)
        (by rw [bitsOf_length]; omega)
      have hle1 : l.getD (D - 1 - k) 0 ≤ 1 := by
        rw [List.getD_eq_getElem _ _ (by omega)]
        exact hl1 _ (List.getElem_mem (by omega))
      omega
    · unfold phiOf
      rw [if_pos (by omega), if_pos hwmax, hround2]
      exact sum_le_of_forall2 hf
    · intro hne
      unfold phiOf
      rw [if_pos (by omega), if_pos hwmax, hround2]
      apply sum_lt_of_forall2_ne hf
      intro hc
      exact hne (by rw [← hround, hc])
    · have h2 : sentinelOf D + 1 = 2 ^ (D + 1) := by
        have : 1 ≤ 2 ^ (D + 1) := Nat.one_le_two_pow
        unfold sentinelOf
        omega
      have h3 : (2 : ℕ) ^ D ≤ 2 ^ (D + 1) := Nat.pow_le_pow_right (by norm_num) (by omega)
      have := le_max_right v (sentinelOf D)
      omega

/-! ### Grid-level monotonicity -/

/-- The per-cell monotonicity facts, lifted pointwise to whole grids. -/
def GridMono (D : ℕ) (g g2 : Grid) : Prop :=
  List.Forall₂ (List.Forall₂ (cellMono D)) g g2

theorem forall2_cellMono_refl (D : ℕ) (r : List ℕ) :
    List.Forall₂ (cellMono D) r r := by
  induction r with
  | nil => exact List.Forall₂.nil
  | cons a tl ih => exact List.Forall₂.cons (cellMono_refl D a) ih

theorem GridMono_refl (D : ℕ) (g : Grid) : GridMono D g g := by
  induction g with
  | nil => exact List.Forall₂.nil
  | cons r tl ih => exact List.Forall₂.cons (forall2_cellMono_refl D r) ih

/-- `Forall₂` composes along a transitive relation. -/
theorem forall2_trans {α : Type} (R : α → α → Prop)
    (ht : ∀ a b c : α, R a b → R b c → R a c) :
    ∀ {l1 l2 l3 : List α}, List.Forall₂ R l1 l2 → List.Forall₂ R l2 l3 →
      List.Forall₂ R l1 l3 := by
  intro l1 l2 l3 h12
  induction h12 generalizing l3 with
  | nil =>
    intro h23
    cases h23
    exact List.Forall₂.nil
  | cons hab htl ih =>
    intro h23
    cases h23 with
    | cons hbc htl2 => exact List.Forall₂.cons (ht _ _ _ hab hbc) (ih htl2)

theorem GridMono_trans {D : ℕ} {g1 g2 g3 : Grid}
    (h12 : GridMono D g1 g2) (h23 : GridMono D g2 g3) : GridMono D g1 g3 :=
  forall2_trans (List.Forall₂ (cellMono D))
    (fun _ _ _ ha hb =>
      forall2_trans (cellMono D) (fun _ _ _ hc hd => cellMono_trans hc hd) ha hb)
    h12 h23

theorem forall2_le_refl (l : List ℕ) :
    List.Forall₂ (fun a b => a ≤ b) l l := by
  induction l with
  | nil => exact List.Forall₂.nil
  | cons a tl ih => exact List.Forall₂.cons (Nat.le_refl a) ih

/-- Setting one entry of a zero/one digit list to 1 only grows it. -/
theorem set_one_mono (checked : List ℕ) :
    ∀ k : ℕ, (∀ b ∈ checked, b ≤ 1) →
      List.Forall₂ (fun a b => a ≤ b) checked (checked.set k 1) ∧
        ∀ b ∈ checked.set k 1, b ≤ 1 := by
  induction checked with
  | nil =>
    intro k h
    exact ⟨List.Forall₂.nil, by simp⟩
  | cons a tl ih =>
    intro k h
    have ha : a ≤ 1 := h a (by simp)
    have htl : ∀ b ∈ tl, b ≤ 1 := fun b hb => h b (by simp [hb])
    cases k with
    | zero =>
      refine ⟨List.Forall₂.cons ha (forall2_le_refl tl), ?_⟩
      intro b hb
      simp only [List.set, List.mem_cons] at hb
      rcases hb with hb | hb
      · omega
      · exact htl b hb
    | succ k =>
      obtain ⟨h1, h2⟩ := ih k htl
      refine ⟨List.Forall₂.cons (Nat.le_refl a) h1, ?_⟩
      intro b hb
      simp only [List.set, List.mem_cons] at hb
      rcases hb with hb | hb
      · omega
      · exact h2 b hb

/-- The direction loop only sets checked bits: the resulting `checked_dirs`
dominates the input pointwise and stays a zero/one list. -/
theorem dirLoop_checked (env : Env) (ms : MState) (d1Vals d2Vals : List ℚ)
    (m n i j : ℕ) (this_pt : Point) :
    ∀ (dirs : List (ℤ × ℤ)) (k : ℕ) (checked : List ℕ) (poss : List Cand),
      (∀ b ∈ checked, b ≤ 1) →
      List.Forall₂ (fun a b => a ≤ b) checked
          (dirLoop env ms d1Vals d2Vals m n i j this_pt dirs k checked poss).1 ∧
        ∀ b ∈ (dirLoop env ms d1Vals d2Vals m n i j this_pt dirs k checked poss).1,
          b ≤ 1 := by
  intro dirs
  induction dirs with
  | nil =>
    intro k checked poss h
    exact ⟨by simpa [dirLoop] using forall2_le_refl checked,
      by simpa [dirLoop] using h⟩
  | cons d rest ih =>
    intro k checked poss h
    obtain ⟨dirx, diry⟩ := d
    have hstep : ∀ (poss2 : List Cand),
        List.Forall₂ (fun a b => a ≤ b) checked
            (dirLoop env ms d1Vals d2Vals m n i j this_pt rest (k + 1)
              (checked.set k 1) poss2).1 ∧
          ∀ b ∈ (dirLoop env ms d1Vals d2Vals m n i j this_pt rest (k + 1)
              (checked.set k 1) poss2).1, b ≤ 1 := by
      intro poss2
      obtain ⟨hs1, hs2⟩ := set_one_mono checked k h
      obtain ⟨hi1, hi2⟩ := ih (k + 1) (checked.set k 1) poss2 hs2
      exact ⟨forall2_trans (fun a b => a ≤ b)
        (fun _ _ _ ha hb => le_trans ha hb) hs1 hi1, hi2⟩
    simp only [dirLoop]
    split
    · split
      · split
        · exact hstep _
        · exact ih (k + 1) checked poss h
      · exact hstep _
    · exact hstep _

/-- Setting entry `j` of a row to a `cellStep`-related value keeps the whole
row `cellMono`-related. -/
theorem rowMono_set {D : ℕ} :
    ∀ (r : List ℕ) (j w : ℕ), cellStep D (r.getD j 0) w →
      List.Forall₂ (cellMono D) r (r.set j w) := by
  intro r
  induction r with
  | nil =>
    intro j w _
    exact List.Forall₂.nil
  | cons a tl ih =>
    intro j w h
    cases j with
    | zero => exact List.Forall₂.cons (cellStep_cellMono h) (forall2_cellMono_refl D tl)
    | succ j => exact List.Forall₂.cons (cellMono_refl D a) (ih j w h)

/-- Writing a `cellStep`-related value into one cell keeps the whole grid
`GridMono`-related. -/
theorem gridMono_setAt {D : ℕ} :
    ∀ (g : Grid) (i j w : ℕ), cellStep D (getAt g i j) w →
      GridMono D g (setAt g i j w) := by
  intro g
  induction g with
  | nil =>
    intro i j w _
    exact List.Forall₂.nil
  | cons r tl ih =>
    intro i j w h
    cases i with
    | zero => exact List.Forall₂.cons (rowMono_set r j w h) (GridMono_refl D tl)
    | succ i => exact List.Forall₂.cons (forall2_cellMono_refl D r) (ih i j w h)

/-- Each processed cell performs a `cellStep` write, hence `GridMono`. -/
theorem processCell_gridMono (env : Env) (d1Vals d2Vals : List ℚ)
    (m n i j : ℕ) (g : Grid) (ms : MState) (g2 : Grid) (ms2 : MState)
    (h : processCell env d1Vals d2Vals m n i j g ms = Except.ok (g2, ms2)) :
    GridMono env.searchDirections.length g g2 := by
  unfold processCell at h
  set D := env.searchDirections.length with hD
  set v := getAt g i j with hv
  by_cases hlt : v < maxNumOf D
  · rw [if_pos hlt] at h
    have hchecked := dirLoop_checked env ms d1Vals d2Vals m n i j
      (d1Vals.getD i 0, d2Vals.getD j 0) env.searchDirections 0 (bitsOf D v) []
      (bitsOf_le_one D v)
    set dl := dirLoop env ms d1Vals d2Vals m n i j
      (d1Vals.getD i 0, d2Vals.getD j 0) env.searchDirections 0 (bitsOf D v) []
      with hdl
    have hofbits : cellStep D v (ofBits dl.1) :=
      Or.inr (Or.inr ⟨hlt, dl.1, hchecked.1, hchecked.2, rfl⟩)
    have hsent : cellStep D v (sentinelOf D) := Or.inr (Or.inl ⟨hlt, rfl⟩)
    dsimp only at h
    rcases hc1 : check_by_minresid env ms dl.2 (d1Vals.getD i 0, d2Vals.getD j 0)
        false with ⟨res1, msA⟩
    rw [hc1] at h
    cases res1 with
    | error e => exact absurd h (by simp)
    | ok cr =>
      cases cr with
      | resolved =>
        simp only [Except.ok.injEq, Prod.mk.injEq] at h
        rw [← h.1]
        exact gridMono_setAt g i j _ hsent
      | unresolved ps =>
        dsimp only at h
        by_cases hps : ps ≠ [] ∧ env.maxBisections > 0
        · rw [if_pos hps] at h
          rcases hc2 : check_by_minresid env msA ps
              (d1Vals.getD i 0, d2Vals.getD j 0) true with ⟨res2, msB⟩
          rw [hc2] at h
          cases res2 with
          | error e => exact absurd h (by simp)
          | ok cr2 =>
            cases cr2 with
            | resolved =>
              simp only [Except.ok.injEq, Prod.mk.injEq] at h
              rw [← h.1]
              exact gridMono_setAt g i j _ hsent
            | unresolved ps2 =>
              simp only [Except.ok.injEq, Prod.mk.injEq] at h
              rw [← h.1]
              exact gridMono_setAt g i j _ hofbits
        · rw [if_neg hps] at h
          simp only [Except.ok.injEq, Prod.mk.injEq] at h
          rw [← h.1]
          exact gridMono_setAt g i j _ hofbits
  · rw [if_neg hlt] at h
    simp only [Except.ok.injEq, Prod.mk.injEq] at h
    rw [← h.1]
    exact GridMono_refl D g

/-- Sequential cell processing composes the per-cell monotonicity. -/
theorem cellsGo_gridMono (env : Env) (d1Vals d2Vals : List ℚ) (m n : ℕ) :
    ∀ (cells : List (ℕ × ℕ)) (g : Grid) (ms : MState) (g2 : Grid) (ms2 : MState),
      cellsGo env d1Vals d2Vals m n cells g ms = Except.ok (g2, ms2) →
      GridMono env.searchDirections.length g g2 := by
  intro cells
  induction cells with
  | nil =>
    intro g ms g2 ms2 h
    simp only [cellsGo, Except.ok.injEq, Prod.mk.injEq] at h
    rw [← h.1]
    exact GridMono_refl _ g
  | cons c rest ih =>
    intro g ms g2 ms2 h
    obtain ⟨i, j⟩ := c
    simp only [cellsGo] at h
    rcases hp : processCell env d1Vals d2Vals m n i j g ms with he | gm
    · rw [hp] at h
      exact absurd h (by simp)
    · rw [hp] at h
      exact GridMono_trans
        (processCell_gridMono env d1Vals d2Vals m n i j g ms gm.1 gm.2
          (by rw [hp]))
        (ih gm.1 gm.2 g2 ms2 h)

/-- C5 core: one full sweep is `GridMono` on the bitmask grid. -/
theorem minresid_iteration_gridMono (env : Env) (d1Vals d2Vals : List ℚ)
    (g : Grid) (ms : MState) (g2 : Grid) (ms2 : MState)
    (h : minresid_iteration env d1Vals d2Vals g ms = Except.ok (g2, ms2)) :
    GridMono env.searchDirections.length g g2 := by
  unfold minresid_iteration at h
  exact cellsGo_gridMono env d1Vals d2Vals _ _ _ g ms g2 ms2 h

/-- Pointwise reading of `GridMono` through `getAt` (out-of-range reads are
the shared default 0). -/
theorem gridMono_getAt {D : ℕ} {g g2 : Grid} (h : GridMono D g g2) (i j : ℕ) :
    cellMono D (getAt g i j) (getAt g2 i j) := by
  unfold getAt
  by_cases hi : i < g.length
  · have hi2 : i < g2.length := by rw [← h.length_eq]; exact hi
    have hrow := (List.forall₂_iff_get.mp h).2 i hi hi2
    have hg1 : g.getD i [] = g.get ⟨i, hi⟩ := by
      rw [List.getD_eq_getElem _ _ hi]
      rfl
    have hg2 : g2.getD i [] = g2.get ⟨i, hi2⟩ := by
      rw [List.getD_eq_getElem _ _ hi2]
      rfl
    rw [hg1, hg2]
    by_cases hj : j < (g.get ⟨i, hi⟩).length
    · have hj2 : j < (g2.get ⟨i, hi2⟩).length := by
        rw [← hrow.length_eq]
        exact hj
      have hcell := (List.forall₂_iff_get.mp hrow).2 j hj hj2
      rw [List.getD_eq_getElem _ _ hj, List.getD_eq_getElem _ _ hj2]
      exact hcell
    · have hj2 : ¬ j < (g2.get ⟨i, hi2⟩).length := by
        rw [← hrow.length_eq]
        exact hj
      have hd1 : (g.get ⟨i, hi⟩).getD j 0 = 0 :=
        List.getD_eq_default _ _ (by omega)
      have hd2 : (g2.get ⟨i, hi2⟩).getD j 0 = 0 :=
        List.getD_eq_default _ _ (by omega)
      rw [hd1, hd2]
      exact cellMono_refl D 0
  · have hi2 : ¬ i < g2.length := by rw [← h.length_eq]; exact hi
    have hd1 : g.getD i [] = [] := List.getD_eq_default _ _ (by omega)
    have hd2 : g2.getD i [] = [] := List.getD_eq_default _ _ (by omega)
    rw [hd1, hd2]
    exact cellMono_refl D 0

/-- C5: across one sweep of `minresid_iteration` every cell of `isMapped` is
monotonically non-decreasing, and direction bits are only set, never
cleared (so across any number of sweeps the stored integer never
decreases). -/
theorem C5_bitmask_monotone (env : Env) (d1Vals d2Vals : List ℚ) (g : Grid)
    (ms : MState) (g2 : Grid) (ms2 : MState)
    (h : minresid_iteration env d1Vals d2Vals g ms = Except.ok (g2, ms2)) :
    ∀ i j : ℕ, getAt g i j ≤ getAt g2 i j ∧
      ∀ k, (getAt g i j).testBit k = true → (getAt g2 i j).testBit k = true := by
  intro i j
  have hm := gridMono_getAt
    (minresid_iteration_gridMono env d1Vals d2Vals g ms g2 ms2 h) i j
  exact ⟨hm.1, hm.2.1⟩

/-- Witness for C5: a concrete one-cell sweep that sets both direction bits
(`0 → 3`), with the monotonicity facts instantiated at that cell. -/
theorem C5_witness :
    minresid_iteration baseEnv [0] [0] [[0]] MState.empty
        = Except.ok ([[3]],
            { cmap := [], nmap := [], bisectCalls := 0, statusLog := [(0, 0)] }) ∧
      (getAt [[0]] 0 0 ≤ getAt [[3]] 0 0 ∧
        ∀ k, (getAt [[0]] 0 0).testBit k = true →
          (getAt [[3]] 0 0).testBit k = true) :=
  ⟨by with_unfolding_all decide,
   C5_bitmask_monotone baseEnv [0] [0] [[0]] MState.empty [[3]]
     { cmap := [], nmap := [], bisectCalls := 0, statusLog := [(0, 0)] }
     (by with_unfolding_all decide) 0 0⟩

/-! ### Sweep-count bound (C6) -/

/-- Row potential: sum of cell potentials. -/
def phiRow (D : ℕ) (r : List ℕ) : ℕ := (r.map (phiOf D)).sum

/-- Grid potential: every progressing sweep strictly increases it. -/
def PhiGrid (D : ℕ) (g : Grid) : ℕ := (g.map (phiRow D)).sum

/-- Number of cells of the grid. -/
def totalCells (g : Grid) : ℕ := (g.map List.length).sum

theorem phiOf_le (D v : ℕ) : phiOf D v ≤ D + 1 := by
  unfold phiOf
  split
  · have := sum_le_length (bitsOf_le_one D v)
    rw [bitsOf_length] at this
    omega
  · exact Nat.le_refl _

theorem phiRow_mono {D : ℕ} {r r2 : List ℕ}
    (h : List.Forall₂ (cellMono D) r r2) :
    phiRow D r ≤ phiRow D r2 ∧ (r ≠ r2 → phiRow D r < phiRow D r2) := by
  induction h with
  | nil => exact ⟨Nat.le_refl _, fun h => absurd rfl h⟩
  | cons hab htl ih =>
    rename_i a b tl1 tl2
    obtain ⟨hle, hstr⟩ := ih
    have hphile : phiOf D a ≤ phiOf D b := hab.2.2.1
    constructor
    · simp only [phiRow, List.map_cons, List.sum_cons] at *
      omega
    · intro hne
      by_cases hch : a = b
      · subst hch
        have htlne : tl1 ≠ tl2 := by
          intro hc
          exact hne (by rw [hc])
        have := hstr htlne
        simp only [phiRow, List.map_cons, List.sum_cons] at *
        omega
      · have := hab.2.2.2.1 hch
        simp only [phiRow, List.map_cons, List.sum_cons] at *
        omega

theorem PhiGrid_mono {D : ℕ} {g g2 : Grid} (h : GridMono D g g2) :
    PhiGrid D g ≤ PhiGrid D g2 ∧ (g ≠ g2 → PhiGrid D g < PhiGrid D g2) := by
  induction h with
  | nil => exact ⟨Nat.le_refl _, fun h => absurd rfl h⟩
  | cons hab htl ih =>
    rename_i a b tl1 tl2
    obtain ⟨hrl, hrs⟩ := phiRow_mono hab
    obtain ⟨hle, hstr⟩ := ih
    constructor
    · simp only [PhiGrid, List.map_cons, List.sum_cons] at *
      omega
    · intro hne
      by_cases hch : a = b
      · subst hch
        have htlne : tl1 ≠ tl2 := by
          intro hc
          exact hne (by rw [hc])
        have := hstr htlne
        simp only [PhiGrid, List.map_cons, List.sum_cons] at *
        omega
      · have := hrs hch
        simp only [PhiGrid, List.map_cons, List.sum_cons] at *
        omega

theorem phiRow_le (D : ℕ) (r : List ℕ) : phiRow D r ≤ r.length * (D + 1) := by
  induction r with
  | nil => simp [phiRow]
  | cons a tl ih =>
    have := phiOf_le D a
    simp only [phiRow, List.map_cons, List.sum_cons, List.length_cons] at *
    have h2 : (tl.length + 1) * (D + 1) = tl.length * (D + 1) + (D + 1) := by ring
    omega

theorem PhiGrid_le (D : ℕ) (g : Grid) : PhiGrid D g ≤ totalCells g * (D + 1) := by
  induction g with
  | nil => simp [PhiGrid, totalCells]
  | cons r tl ih =>
    have := phiRow_le D r
    simp only [PhiGrid, totalCells, List.map_cons, List.sum_cons] at *
    have h2 : (r.length + (List.map List.length tl).sum) * (D + 1)
        = r.length * (D + 1) + (List.map List.length tl).sum * (D + 1) := by
      ring
    omega

theorem totalCells_eq_of_mono {D : ℕ} {g g2 : Grid} (h : GridMono D g g2) :
    totalCells g2 = totalCells g := by
  induction h with
  | nil => rfl
  | cons hab htl ih =>
    simp only [totalCells, List.map_cons, List.sum_cons] at *
    rw [ih, hab.length_eq]

/-- All entries bounded by the sentinel. -/
def gridLe (S : ℕ) (g : Grid) : Prop := ∀ r ∈ g, ∀ x ∈ r, x ≤ S

theorem rowLe_of_mono {D : ℕ} {r r2 : List ℕ}
    (h : List.Forall₂ (cellMono D) r r2)
    (hle : ∀ x ∈ r, x ≤ sentinelOf D) : ∀ x ∈ r2, x ≤ sentinelOf D := by
  induction h with
  | nil => intro x hx; simp at hx
  | cons hcd htl ih =>
    rename_i c d tl3 tl4
    intro x hx
    rcases List.mem_cons.mp hx with rfl | hx
    · have h1 := hcd.2.2.2.2
      have h2 : c ≤ sentinelOf D := hle c (by simp)
      have h3 := le_max_iff.mp h1
      omega
    · exact ih (fun y hy => hle y (by simp [hy])) x hx

theorem gridLe_of_mono {D : ℕ} {g g2 : Grid} (h : GridMono D g g2)
    (hle : gridLe (sentinelOf D) g) : gridLe (sentinelOf D) g2 := by
  induction h with
  | nil => exact hle
  | cons hab htl ih =>
    rename_i a b tl1 tl2
    intro r hr x hx
    rcases List.mem_cons.mp hr with rfl | hr
    · exact rowLe_of_mono hab (hle a (by simp)) x hx
    · exact ih (fun r2 hr2 => hle r2 (by simp [hr2])) r hr x hx

theorem sumsq_le_of_gridLe {S : ℕ} {g : Grid} (h : gridLe S g) :
    sumsq g ≤ totalCells g * S ^ 2 := by
  induction g with
  | nil => simp [sumsq, totalCells]
  | cons r tl ih =>
    have hrow : (r.map (fun v => v * v)).sum ≤ r.length * S ^ 2 := by
      have hr : ∀ x ∈ r, x ≤ S := h r (by simp)
      clear ih h
      induction r with
      | nil => simp
      | cons a tl2 ih2 =>
        have ha : a ≤ S := hr a (by simp)
        have h2 := ih2 (fun x hx => hr x (by simp [hx]))
        have h3 : a * a ≤ S ^ 2 := by
          rw [pow_two]
          exact Nat.mul_le_mul ha ha
        simp only [List.map_cons, List.sum_cons, List.length_cons] at *
        have h4 : (tl2.length + 1) * S ^ 2 = tl2.length * S ^ 2 + S ^ 2 := by
          ring
        omega
    have htl := ih (fun r2 hr2 => h r2 (by simp [hr2]))
    simp only [sumsq, totalCells, List.map_cons, List.sum_cons] at *
    have h5 : (r.length + (List.map List.length tl).sum) * S ^ 2
        = r.length * S ^ 2 + (List.map List.length tl).sum * S ^ 2 := by
      ring
    omega

/-! ### No fuel exhaustion in the embedded loops -/

theorem qpow_le (mb : ℤ) : (2 : ℚ) ^ mb ≤ ((2 ^ mb.toNat : ℕ) : ℚ) := by
  rcases le_or_lt 0 mb with hmb | hmb
  · obtain ⟨n, rfl⟩ : ∃ n : ℕ, mb = (n : ℤ) :=
      ⟨mb.toNat, (Int.toNat_of_nonneg hmb).symm⟩
    rw [zpow_natCast, Int.toNat_natCast]
    push_cast
    exact le_refl _
  · have h1 : ((2 : ℚ)) ^ mb < 1 := zpow_lt_one_of_neg₀ (by norm_num) hmb
    have h2 : (1 : ℚ) ≤ ((2 ^ mb.toNat : ℕ) : ℚ) := by
      have : 1 ≤ 2 ^ mb.toNat := Nat.one_le_two_pow
      exact_mod_cast this
    linarith

theorem gnvcLoop_no_fuel (env : Env) (old_descriptors : Point) (q cov : Qty) :
    ∀ (budget : ℕ) (cur : Point) (lastR : Option ℚ) (iters : ℕ),
      (gnvcLoop env old_descriptors q cov cur lastR iters budget).1
        ≠ Except.error BErr.fuel := by
  intro budget
  induction budget with
  | zero =>
    intro cur lastR iters
    cases lastR <;> simp [gnvcLoop]
  | succ b ih =>
    intro cur lastR iters
    simp only [gnvcLoop]
    cases h : env.solve cur q with
    | ok cn => simp
    | error e => exact ih _ _ _

theorem bdlLoop_no_fuel (env : Env) (new_descriptors : Point) :
    ∀ (fuel : ℕ) (solved : Point) (q : Qty) (st : MState) (PCiter : ℕ),
      2 ^ env.maxBisections.toNat + 2 ≤ fuel + PCiter → 1 ≤ fuel →
      (bdlLoop env new_descriptors solved q st PCiter fuel).1
        ≠ Except.error BErr.fuel := by
  intro fuel
  induction fuel with
  | zero => intro _ _ _ _ h1 h2; omega
  | succ f ih =>
    intro solved q st PCiter hge _
    by_cases hg : (PCiter : ℚ) ≤ (2 : ℚ) ^ env.maxBisections
    · have hPC : PCiter ≤ 2 ^ env.maxBisections.toNat := qpow_guard hg
      simp only [bdlLoop, if_pos hg]
      rcases hgo : get_next_valid_coverages env new_descriptors solved q
        with ⟨res, niter⟩
      cases res with
      | error e =>
        have hnf := gnvcLoop_no_fuel env solved q
          (if env.useNumbers then env.changeXtoTheta q else q)
          env.maxBisections.toNat new_descriptors none 0
        unfold get_next_valid_coverages at hgo
        rw [hgo] at hnf
        simpa using hnf
      | ok sq =>
        simp only []
        by_cases hs : sq.1 = new_descriptors
        · simp [hs]
        · simp only [if_neg hs]
          exact ih _ _ _ _ (by omega) (by omega)
    · simp [bdlLoop, if_neg hg]

theorem bdl_no_fuel (env : Env) (st : MState) (new_descriptors old_descriptors : Point)
    (q : Qty) :
    (bisect_descriptor_line env st new_descriptors old_descriptors q).1
      ≠ Except.error BErr.fuel := by
  unfold bisect_descriptor_line
  exact bdlLoop_no_fuel env new_descriptors (2 ^ env.maxBisections.toNat + 2)
    _ _ _ 0 (by simp) (by simp)

theorem cbmLoop_no_fuel (env : Env) (this_pt : Point) (bisect : Bool) :
    ∀ (poss : List Cand) (st : MState) (tried : List Point) (nps : List Cand),
      (cbmLoop env this_pt bisect poss st tried nps).1
        ≠ Except.error BErr.fuel := by
  intro poss
  induction poss with
  | nil => intro st tried nps; simp [cbmLoop]
  | cons c rest ih =>
    intro st tried nps
    obtain ⟨r, sol_pt, cq⟩ := c
    simp only [cbmLoop]
    split
    · exact ih _ _ _
    · split
      · cases h : env.solve this_pt cq with
        | ok cn => simp
        | error e => exact ih _ _ _
      · rcases hb : bisect_descriptor_line env
            { st with statusLog := st.statusLog ++ [sol_pt] } this_pt sol_pt cq
          with ⟨res, st2, n2⟩
        have hnf := bdl_no_fuel env
          { st with statusLog := st.statusLog ++ [sol_pt] } this_pt sol_pt cq
        rw [hb] at hnf
        cases res with
        | ok qq => simp
        | error e =>
          cases e with
          | valueError pr => exact ih _ _ _
          | unboundLocal => simp
          | fuel => exact absurd rfl hnf

theorem processCell_no_fuel (env : Env) (d1Vals d2Vals : List ℚ)
    (m n i j : ℕ) (g : Grid) (ms : MState) :
    processCell env d1Vals d2Vals m n i j g ms ≠ Except.error BErr.fuel := by
  simp only [processCell]
  split
  · rcases hc1 : check_by_minresid env ms
        (dirLoop env ms d1Vals d2Vals m n i j (d1Vals.getD i 0, d2Vals.getD j 0)
          env.searchDirections 0
          (bitsOf env.searchDirections.length (getAt g i j)) []).2
        (d1Vals.getD i 0, d2Vals.getD j 0) false with ⟨res1, msA⟩
    have h1 := cbmLoop_no_fuel env (d1Vals.getD i 0, d2Vals.getD j 0) false
      (dirLoop env ms d1Vals d2Vals m n i j (d1Vals.getD i 0, d2Vals.getD j 0)
        env.searchDirections 0
        (bitsOf env.searchDirections.length (getAt g i j)) []).2 ms [] []
    have hc1b := hc1
    unfold check_by_minresid at hc1b
    rw [hc1b] at h1
    cases res1 with
    | error e => simpa using h1
    | ok cr =>
      cases cr with
      | resolved => simp
      | unresolved ps =>
        dsimp only
        split
        · rcases hc2 : check_by_minresid env msA ps
              (d1Vals.getD i 0, d2Vals.getD j 0) true with ⟨res2, msB⟩
          have h2 := cbmLoop_no_fuel env (d1Vals.getD i 0, d2Vals.getD j 0) true
            ps msA [] []
          have hc2b := hc2
          unfold check_by_minresid at hc2b
          rw [hc2b] at h2
          cases res2 with
          | error e => simpa using h2
          | ok cr2 => cases cr2 <;> simp
        · simp
  · simp

theorem cellsGo_no_fuel (env : Env) (d1Vals d2Vals : List ℚ) (m n : ℕ) :
    ∀ (cells : List (ℕ × ℕ)) (g : Grid) (ms : MState),
      cellsGo env d1Vals d2Vals m n cells g ms ≠ Except.error BErr.fuel := by
  intro cells
  induction cells with
  | nil => intro g ms; simp [cellsGo]
  | cons c rest ih =>
    intro g ms
    obtain ⟨i, j⟩ := c
    simp only [cellsGo]
    rcases hp : processCell env d1Vals d2Vals m n i j g ms with e | gm
    · have := processCell_no_fuel env d1Vals d2Vals m n i j g ms
      rw [hp] at this
      simpa using this
    · exact ih _ _

theorem minresid_iteration_no_fuel (env : Env) (d1Vals d2Vals : List ℚ)
    (g : Grid) (ms : MState) :
    minresid_iteration env d1Vals d2Vals g ms ≠ Except.error BErr.fuel := by
  unfold minresid_iteration
  exact cellsGo_no_fuel env d1Vals d2Vals _ _ _ g ms

/-- The outer sweep loop never exhausts the fuel chosen by
`get_coverage_map`: the squared norm strictly increases while the guard
holds and is bounded by `cells * sentinel ^ 2`. -/
theorem sweepLoop_no_fuel_error (env : Env) (d1Vals d2Vals : List ℚ) (B : ℕ) :
    ∀ (fuel : ℕ) (g : Grid) (ms : MState) (iter cnt : ℕ) (sold : ℤ),
      gridLe (sentinelOf env.searchDirections.length) g →
      totalCells g * sentinelOf env.searchDirections.length ^ 2 = B →
      (B : ℤ) + 1 ≤ (fuel : ℤ) + sold →
      sweepLoop env d1Vals d2Vals fuel g ms iter cnt sold
        ≠ Except.error BErr.fuel := by
  intro fuel
  induction fuel with
  | zero =>
    intro g ms iter cnt sold hle hB hge
    have hs : sumsq g ≤ B := by
      rw [← hB]
      exact sumsq_le_of_gridLe hle
    have hguard : ¬ ((sumsq g : ℤ) > sold) := by
      push_neg
      have h2 : (sumsq g : ℤ) ≤ (B : ℤ) := by exact_mod_cast hs
      omega
    unfold sweepLoop
    rw [if_neg hguard]
    simp
  | succ f ih =>
    intro g ms iter cnt sold hle hB hge
    by_cases hguard : (sumsq g : ℤ) > sold
    · unfold sweepLoop
      rw [if_pos hguard]
      dsimp only
      rcases hmi : minresid_iteration env d1Vals d2Vals g ms with e | gm
      · have hnf := minresid_iteration_no_fuel env d1Vals d2Vals g ms
        rw [hmi] at hnf
        simpa using hnf
      · have hmono := minresid_iteration_gridMono env d1Vals d2Vals g ms
          gm.1 gm.2 (by rw [hmi])
        apply ih gm.1 gm.2 (iter + 1) _ ((sumsq g : ℤ))
          (gridLe_of_mono hmono hle)
          (by rw [totalCells_eq_of_mono hmono, hB])
        push_cast at hge ⊢
        omega
    · unfold sweepLoop
      rw [if_neg hguard]
      simp

/-- Each progressing sweep strictly increases the potential, so the sweep
counter is bounded by the remaining potential budget. -/
theorem sweepLoop_iter_le (env : Env) (d1Vals d2Vals : List ℚ) (C : ℕ) :
    ∀ (fuel : ℕ) (g : Grid) (ms : MState) (iter cnt : ℕ) (sold : ℤ)
      (g2 : Grid) (ms2 : MState) (iter2 cnt2 : ℕ),
      totalCells g = C →
      sweepLoop env d1Vals d2Vals fuel g ms iter cnt sold
        = Except.ok (g2, ms2, iter2, cnt2) →
      iter2 ≤ iter + 1 +
        (C * (env.searchDirections.length + 1)
          - PhiGrid env.searchDirections.length g) := by
  intro fuel
  induction fuel with
  | zero =>
    intro g ms iter cnt sold g2 ms2 iter2 cnt2 hC h
    unfold sweepLoop at h
    by_cases hguard : (sumsq g : ℤ) > sold
    · rw [if_pos hguard] at h
      exact absurd h (by simp)
    · rw [if_neg hguard] at h
      simp only [Except.ok.injEq, Prod.mk.injEq] at h
      omega
  | succ f ih =>
    intro g ms iter cnt sold g2 ms2 iter2 cnt2 hC h
    unfold sweepLoop at h
    by_cases hguard : (sumsq g : ℤ) > sold
    · rw [if_pos hguard] at h
      dsimp only at h
      rcases hmi : minresid_iteration env d1Vals d2Vals g ms with e | gm
      · rw [hmi] at h
        exact absurd h (by simp)
      · rw [hmi] at h
        dsimp only at h
        have hmono := minresid_iteration_gridMono env d1Vals d2Vals g ms
          gm.1 gm.2 (by rw [hmi])
        by_cases hgg : gm.1 = g
        · rw [hgg] at h
          unfold sweepLoop at h
          rw [if_neg (by omega)] at h
          simp only [Except.ok.injEq, Prod.mk.injEq] at h
          omega
        · have hstrict := (PhiGrid_mono hmono).2 (fun hc => hgg hc.symm)
          have hC2 : totalCells gm.1 = C := by
            rw [totalCells_eq_of_mono hmono, hC]
          have hih := ih gm.1 gm.2 (iter + 1) _ ((sumsq g : ℤ))
            g2 ms2 iter2 cnt2 hC2 h
          have hbound : PhiGrid env.searchDirections.length gm.1
              ≤ C * (env.searchDirections.length + 1) := by
            rw [← hC2]
            exact PhiGrid_le _ _
          omega
    · rw [if_neg hguard] at h
      simp only [Except.ok.injEq, Prod.mk.injEq] at h
      omega

theorem totalCells_replicate (a b : ℕ) :
    totalCells (List.replicate a (List.replicate b (0 : ℕ))) = a * b := by
  simp [totalCells, List.map_replicate, List.sum_replicate, smul_eq_mul,
    Nat.mul_comm]

theorem phiOf_zero (D : ℕ) : phiOf D 0 = 0 := by
  unfold phiOf
  rw [if_pos (Nat.zero_le _)]
  apply List.sum_eq_zero
  intro x hx
  simp only [bitsOf, List.mem_map] at hx
  obtain ⟨k, _, hk⟩ := hx
  rw [Nat.zero_testBit] at hk
  simpa using hk.symm

theorem PhiGrid_replicate_zero (D a b : ℕ) :
    PhiGrid D (List.replicate a (List.replicate b (0 : ℕ))) = 0 := by
  simp [PhiGrid, phiRow, List.map_replicate, List.sum_replicate,
    smul_eq_mul, phiOf_zero]

theorem gridLe_replicate_zero (S a b : ℕ) :
    gridLe S (List.replicate a (List.replicate b (0 : ℕ))) := by
  intro r hr x hx
  rw [List.eq_of_mem_replicate hr] at hx
  rw [List.eq_of_mem_replicate hx]
  exact Nat.zero_le _

/-- C6 (amended): the outer fixed-point sweep loop of `get_coverage_map`
always terminates — it stops at the first sweep that produces no change of
the `isMapped` norm — and the number of executed sweeps is at most
`rows * cols * (D + 1) + 1` where `D` is the number of search directions
(each progressing sweep sets at least one new direction bit or sentinel
somewhere); the number of directions `D` itself does not bound the number
of sweeps. -/
theorem C6_sweep_bound_and_termination :
    (∀ (env : Env) (d1Vals d2Vals : List ℚ) (r : RunResult),
        get_coverage_map env d1Vals d2Vals = Except.ok r →
        r.sweeps ≤ d1Vals.length * d2Vals.length
            * (env.searchDirections.length + 1) + 1) ∧
    (∀ (env : Env) (d1Vals d2Vals : List ℚ),
        get_coverage_map env d1Vals d2Vals ≠ Except.error BErr.fuel) := by
  constructor
  · intro env d1Vals d2Vals r h
    unfold get_coverage_map at h
    dsimp only at h
    rcases hs : sweepLoop env d1Vals.reverse d2Vals.reverse
        (d1Vals.reverse.length * d2Vals.reverse.length
          * sentinelOf env.searchDirections.length ^ 2 + 2)
        (List.replicate d1Vals.reverse.length
          (List.replicate d2Vals.reverse.length 0))
        MState.empty 0 0 (-1) with e | quad
    · rw [hs] at h
      exact absurd h (by simp)
    · rw [hs] at h
      obtain ⟨g2, ms2, iter2, cnt2⟩ := quad
      have hbound := sweepLoop_iter_le env d1Vals.reverse d2Vals.reverse
        (d1Vals.length * d2Vals.length) _ _ _ 0 0 (-1) g2 ms2 iter2 cnt2
        (by rw [totalCells_replicate, List.length_reverse, List.length_reverse])
        hs
      have hphi := PhiGrid_replicate_zero env.searchDirections.length
        d1Vals.reverse.length d2Vals.reverse.length
      rw [hphi] at hbound
      have hr : r.sweeps = iter2 := by
        simp only [Except.ok.injEq] at h
        rw [← h]
      omega
  · intro env d1Vals d2Vals
    unfold get_coverage_map
    dsimp only
    rcases hs : sweepLoop env d1Vals.reverse d2Vals.reverse
        (d1Vals.reverse.length * d2Vals.reverse.length
          * sentinelOf env.searchDirections.length ^ 2 + 2)
        (List.replicate d1Vals.reverse.length
          (List.replicate d2Vals.reverse.length 0))
        MState.empty 0 0 (-1) with e | quad
    · have hnf := sweepLoop_no_fuel_error env d1Vals.reverse d2Vals.reverse
        (d1Vals.reverse.length * d2Vals.reverse.length
          * sentinelOf env.searchDirections.length ^ 2)
        (d1Vals.reverse.length * d2Vals.reverse.length
          * sentinelOf env.searchDirections.length ^ 2 + 2)
        (List.replicate d1Vals.reverse.length
          (List.replicate d2Vals.reverse.length 0))
        MState.empty 0 0 (-1)
        (gridLe_replicate_zero _ _ _)
        (by rw [totalCells_replicate])
        (by push_cast; omega)
      rw [hs] at hnf
      simpa using hnf
    · simp

/-! ### Zero-bisection runs (C7) -/

/-- With `bisect = false` the selector loop always returns normally (every
solver failure is caught) and never touches the bisection engine. -/
theorem cbmLoop_false_ok (env : Env) (this_pt : Point) :
    ∀ (poss : List Cand) (st : MState) (tried : List Point) (nps : List Cand),
      ∃ (res : CheckResult) (st2 : MState),
        cbmLoop env this_pt false poss st tried nps = (Except.ok res, st2) ∧
          st2.bisectCalls = st.bisectCalls := by
  intro poss
  induction poss with
  | nil =>
    intro st tried nps
    exact ⟨CheckResult.unresolved nps, _, rfl, rfl⟩
  | cons c rest ih =>
    intro st tried nps
    obtain ⟨r, sol_pt, cq⟩ := c
    simp only [cbmLoop]
    split
    · exact ih _ _ _
    · split
      · cases hsol : env.solve this_pt cq with
        | ok cn =>
          refine ⟨CheckResult.resolved, _, rfl, ?_⟩
          split
          · split <;> rfl
          · rfl
        | error e => exact ih _ _ _
      · rename_i hcond
        exact absurd (Or.inl trivial) hcond

/-- With a non-positive bisection budget each cell is processed without
exception and without invoking `bisect_descriptor_line`. -/
theorem processCell_mb0 (env : Env) (hmb : ¬ env.maxBisections > 0)
    (d1Vals d2Vals : List ℚ) (m n i j : ℕ) (g : Grid) (ms : MState) :
    ∃ (g2 : Grid) (ms2 : MState),
      processCell env d1Vals d2Vals m n i j g ms = Except.ok (g2, ms2) ∧
        ms2.bisectCalls = ms.bisectCalls := by
  simp only [processCell, check_by_minresid]
  split
  · obtain ⟨res, st2, heq, hbc⟩ := cbmLoop_false_ok env
      (d1Vals.getD i 0, d2Vals.getD j 0)
      (dirLoop env ms d1Vals d2Vals m n i j (d1Vals.getD i 0, d2Vals.getD j 0)
        env.searchDirections 0
        (bitsOf env.searchDirections.length (getAt g i j)) []).2 ms [] []
    rw [heq]
    cases res with
    | resolved => exact ⟨_, _, rfl, hbc⟩
    | unresolved ps =>
      dsimp only
      rw [if_neg (fun hc => hmb hc.2)]
      exact ⟨_, _, rfl, hbc⟩
  · exact ⟨g, ms, rfl, rfl⟩

theorem cellsGo_mb0 (env : Env) (hmb : ¬ env.maxBisections > 0)
    (d1Vals d2Vals : List ℚ) (m n : ℕ) :
    ∀ (cells : List (ℕ × ℕ)) (g : Grid) (ms : MState),
      ∃ (g2 : Grid) (ms2 : MState),
        cellsGo env d1Vals d2Vals m n cells g ms = Except.ok (g2, ms2) ∧
          ms2.bisectCalls = ms.bisectCalls := by
  intro cells
  induction cells with
  | nil =>
    intro g ms
    exact ⟨g, ms, rfl, rfl⟩
  | cons c rest ih =>
    intro g ms
    obtain ⟨i, j⟩ := c
    obtain ⟨gA, msA, heq, hbc⟩ := processCell_mb0 env hmb d1Vals d2Vals m n i j g ms
    obtain ⟨gB, msB, heq2, hbc2⟩ := ih gA msA
    refine ⟨gB, msB, ?_, by omega⟩
    simp only [cellsGo]
    rw [heq]
    exact heq2

theorem minresid_iteration_mb0 (env : Env) (hmb : ¬ env.maxBisections > 0)
    (d1Vals d2Vals : List ℚ) (g : Grid) (ms : MState) :
    ∃ (g2 : Grid) (ms2 : MState),
      minresid_iteration env d1Vals d2Vals g ms = Except.ok (g2, ms2) ∧
        ms2.bisectCalls = ms.bisectCalls := by
  unfold minresid_iteration
  exact cellsGo_mb0 env hmb d1Vals d2Vals _ _ _ g ms

/-- The whole sweep loop of a zero-bisection run completes normally with the
invocation counter untouched. -/
theorem sweepLoop_mb0 (env : Env) (hmb : ¬ env.maxBisections > 0)
    (d1Vals d2Vals : List ℚ) (B : ℕ) :
    ∀ (fuel : ℕ) (g : Grid) (ms : MState) (iter cnt : ℕ) (sold : ℤ),
      gridLe (sentinelOf env.searchDirections.length) g →
      totalCells g * sentinelOf env.searchDirections.length ^ 2 = B →
      (B : ℤ) + 1 ≤ (fuel : ℤ) + sold →
      ∃ (g2 : Grid) (ms2 : MState) (iter2 cnt2 : ℕ),
        sweepLoop env d1Vals d2Vals fuel g ms iter cnt sold
          = Except.ok (g2, ms2, iter2, cnt2) ∧
          ms2.bisectCalls = ms.bisectCalls := by
  intro fuel
  induction fuel with
  | zero =>
    intro g ms iter cnt sold hle hB hge
    have hs : sumsq g ≤ B := by
      rw [← hB]
      exact sumsq_le_of_gridLe hle
    have hguard : ¬ ((sumsq g : ℤ) > sold) := by
      push_neg
      have h2 : (sumsq g : ℤ) ≤ (B : ℤ) := by exact_mod_cast hs
      omega
    refine ⟨g, ms, iter, cnt, ?_, rfl⟩
    unfold sweepLoop
    rw [if_neg hguard]
  | succ f ih =>
    intro g ms iter cnt sold hle hB hge
    by_cases hguard : (sumsq g : ℤ) > sold
    · obtain ⟨gA, msA, heq, hbc⟩ := minresid_iteration_mb0 env hmb d1Vals d2Vals g ms
      have hmono := minresid_iteration_gridMono env d1Vals d2Vals g ms gA msA heq
      obtain ⟨g2, ms2, iter2, cnt2, heq2, hbc2⟩ := ih gA msA (iter + 1)
        (countUnmapped g (maxNumOf env.searchDirections.length)) ((sumsq g : ℤ))
        (gridLe_of_mono hmono hle)
        (by rw [totalCells_eq_of_mono hmono, hB])
        (by push_cast at hge ⊢; omega)
      refine ⟨g2, ms2, iter2, cnt2, ?_, by omega⟩
      unfold sweepLoop
      rw [if_pos hguard]
      dsimp only
      rw [heq]
      exact heq2
    · refine ⟨g, ms, iter, cnt, ?_, rfl⟩
      unfold sweepLoop
      rw [if_neg hguard]

/-- Environment for the C6 counterexample: a 2-by-1 grid whose lower cell
only solves from the neighbor seed, forcing one extra propagation sweep. -/
def envC6x : Env :=
  { baseEnv with
      maxBisections := 0
      solve := fun p c =>
        if p = ((1 : ℚ), (0 : ℚ)) ∨ c = [7] then Except.ok ([7], [7])
        else Except.error (some 1) }

set_option maxRecDepth 200000 in
set_option maxHeartbeats 1000000 in
/-- C6 (counterexample): with 2 search directions, a 2-by-1 grid needs 3
sweeps (solve the far cell, propagate to its neighbor, detect the fixed
point), exceeding the claimed bound of `D = 2` sweeps. -/
theorem C6_counterexample :
    runSweeps (get_coverage_map envC6x [1, 0] [0]) = some 3 ∧
    envC6x.searchDirections.length = 2 ∧ ¬ (3 ≤ 2) := by
  refine ⟨by with_unfolding_all decide, rfl, by norm_num⟩

set_option maxRecDepth 200000 in
/-- Witness for the amended C6 bound: the empty grid runs in one sweep,
within the bound `0 * 0 * (D + 1) + 1 = 1`. -/
theorem C6_witness :
    get_coverage_map baseEnv [] [] =
      Except.ok ⟨[], [], [], 1, 0, 0⟩ ∧
    (RunResult.mk [] [] [] 1 0 0).sweeps ≤
      ([] : List ℚ).length * ([] : List ℚ).length
        * (baseEnv.searchDirections.length + 1) + 1 :=
  ⟨by with_unfolding_all decide,
   C6_sweep_bound_and_termination.1 baseEnv [] [] ⟨[], [], [], 1, 0, 0⟩
     (by with_unfolding_all decide)⟩

/-- Environment for the C7 scenario: zero bisection budget, the solver only
converges at the point `(1, 0)`, so the cell at `(0, 0)` keeps failing on
its neighbor seed. -/
def envC7 : Env :=
  { baseEnv with
      maxBisections := 0
      solve := fun p _ =>
        if p = ((1 : ℚ), (0 : ℚ)) then Except.ok ([7], [7])
        else Except.error (some 1) }

set_option maxRecDepth 200000 in
set_option maxHeartbeats 1000000 in
/-- C7: with `max_bisections = 0` every fresh run of `get_coverage_map`
returns normally with the bisection engine never invoked; in the concrete
scenario with a failing neighbor seed the failing cell stays unresolved
(bitmask `3 = maxNum`, below the solved sentinel) and is counted in the
final unmapped report, and no exception escapes the run. -/
theorem C7_zero_bisections_no_escape :
    (∀ (env : Env) (d1Vals d2Vals : List ℚ), env.maxBisections = 0 →
      ∃ r : RunResult, get_coverage_map env d1Vals d2Vals = Except.ok r ∧
        r.bisectCalls = 0) ∧
    (runOk (get_coverage_map envC7 [1, 0] [0]) = true ∧
      runBisectCalls (get_coverage_map envC7 [1, 0] [0]) = some 0 ∧
      runUnmapped (get_coverage_map envC7 [1, 0] [0]) = some 1 ∧
      runGridAt 0 0 (get_coverage_map envC7 [1, 0] [0]) = some 3 ∧
      3 ≤ maxNumOf envC7.searchDirections.length) := by
  constructor
  · intro env d1Vals d2Vals hmb
    have hmb2 : ¬ env.maxBisections > 0 := by omega
    obtain ⟨g2, ms2, iter2, cnt2, heq, hbc⟩ :=
      sweepLoop_mb0 env hmb2 d1Vals.reverse d2Vals.reverse
        (d1Vals.reverse.length * d2Vals.reverse.length
          * sentinelOf env.searchDirections.length ^ 2)
        (d1Vals.reverse.length * d2Vals.reverse.length
          * sentinelOf env.searchDirections.length ^ 2 + 2)
        (List.replicate d1Vals.reverse.length
          (List.replicate d2Vals.reverse.length 0))
        MState.empty 0 0 (-1)
        (gridLe_replicate_zero _ _ _)
        (by rw [totalCells_replicate])
        (by push_cast; omega)
    have hg : get_coverage_map env d1Vals d2Vals = Except.ok
        ⟨(dedupGo env.useNumbers
            (fun pt => retrieve_data ms2.nmap pt env.precision) ms2.cmap [] [] []).1,
          (dedupGo env.useNumbers
            (fun pt => retrieve_data ms2.nmap pt env.precision) ms2.cmap [] [] []).2,
          g2, iter2, cnt2, ms2.bisectCalls⟩ := by
      unfold get_coverage_map
      dsimp only
      rw [heq]
    exact ⟨_, hg, by simpa [MState.empty] using hbc⟩
  · refine ⟨?_, ?_, ?_, ?_, ?_⟩ <;> with_unfolding_all decide

/-- Witness for the universal part of C7 at a concrete zero-bisection
environment and grid. -/
theorem C7_witness :
    ∃ r : RunResult, get_coverage_map envC7 [1, 0] [0] = Except.ok r ∧
      r.bisectCalls = 0 :=
  C7_zero_bisections_no_escape.1 envC7 [1, 0] [0] rfl
